import Mathlib

/-!
Verification of the MyCache (geecache) repository against its
natural-language specification.

The Go sources are shallowly embedded as pure Lean functions:

* src/geecache/lru/lru.go            : namespace Lru
* src/geecache/consistenthash/...go  : namespace CHash
* src/geecache/singleflight/...go    : namespace SFlight (interleaving model)
* src/geecache/geecache.go           : namespace GeeCache
* src/geecache/byteview.go           : namespace GeeCache (ByteView)

Modelling conventions:

* Go int64 values (byte counts, max bytes) are Lean Int; overflow is not
  modelled because every claim stays far below 2^63.
* time.Time is an Int instant; the zero instant is 0 (time.Time.IsZero
  becomes equality with 0) and time.Now() is assumed positive where a
  claim needs it.  t1.After(t2) is t2 < t1, t1.Before(t2) is t1 < t2.
* The Go map cache[key] of the LRU is kept in bijection with the list by
  the source (both are updated together), so the model stores only the
  recency list ll (front of the list is the most recently used element)
  and looks keys up in it; the map hit cache[key] is the unique entry of
  ll with that key.
* The optional OnEvicted callback is modelled by the field evicted, a log
  that removeElement appends (key, value) to: when a callback is
  registered, the Go code invokes it exactly once per logged pair and in
  the logged order.
* Go loops that are not structurally recursive are written with an
  explicit fuel argument chosen at each call site to be a proven upper
  bound on the number of iterations the Go loop can perform, so the fuel
  never runs out on inputs the Go code reaches; fuel keeps every
  definition computable by the kernel.
-/

namespace Lru

/-- One item of the expiry heap: the pair (expireAt, key) from lru.go. -/
structure ExpireItem where
  expireAt : Int
  key : String
deriving DecidableEq, Repr

/-- Array read h[i] used by the container/heap algorithms; the default is
never reached because the Go code only indexes inside the slice. -/
def hGet (h : List ExpireItem) (i : Nat) : ExpireItem :=
  h.getD i ⟨0, ""⟩

/-- h.Swap(i, j) of the expireHeap slice. -/
def hSwap (h : List ExpireItem) (i j : Nat) : List ExpireItem :=
  (h.set i (hGet h j)).set j (hGet h i)

/-- h.Less(i, j): the item at i expires strictly before the item at j. -/
def hLess (h : List ExpireItem) (i j : Nat) : Bool :=
  decide ((hGet h i).expireAt < (hGet h j).expireAt)

/-- Loop body of container/heap up (sift up).  The Go loop sets
i := (j-1)/2 and stops when i == j or the child is not smaller; each
iteration strictly decreases j, so fuel j+1 (supplied by heapUp) is an
upper bound on the iteration count and the translation is exact. -/
def heapUpGo : Nat → List ExpireItem → Nat → List ExpireItem
  | 0, h, _ => h
  | fuel + 1, h, j =>
    let i := (j - 1) / 2
    if i ≠ j ∧ hLess h j i then heapUpGo fuel (hSwap h i j) i else h

/-- container/heap up(h, j). -/
def heapUp (h : List ExpireItem) (j : Nat) : List ExpireItem :=
  heapUpGo (j + 1) h j

/-- Loop body of container/heap down (sift down).  The Go loop walks from
parent i to the smaller child j (j1 = 2i+1, j2 = 2i+2) while the child is
smaller; each iteration strictly increases i and keeps it below n, so
fuel n (supplied by heapDown) bounds the iteration count. -/
def heapDownGo : Nat → List ExpireItem → Nat → Nat → List ExpireItem
  | 0, h, _, _ => h
  | fuel + 1, h, i, n =>
    if 2 * i + 1 < n then
      if 2 * i + 2 < n ∧ hLess h (2 * i + 2) (2 * i + 1) then
        if hLess h (2 * i + 2) i then heapDownGo fuel (hSwap h i (2 * i + 2)) (2 * i + 2) n
        else h
      else
        if hLess h (2 * i + 1) i then heapDownGo fuel (hSwap h i (2 * i + 1)) (2 * i + 1) n
        else h
    else h

/-- container/heap down(h, i0, n) (the returned Bool of the Go helper is
unused by Push and Pop call sites modelled here). -/
def heapDown (h : List ExpireItem) (i n : Nat) : List ExpireItem :=
  heapDownGo n h i n

/-- heap.Push(h, x): append x (the Push method of expireHeap) and sift it
up from the last position. -/
def heapPush (h : List ExpireItem) (x : ExpireItem) : List ExpireItem :=
  heapUp (h ++ [x]) h.length

/-- heap.Pop(h): swap the top with the last element, sift down over the
first n-1 positions, then drop the last element (the Pop method of
expireHeap).  The popped item itself is the previous top h[0]; CleanExpired
reads it before popping, so only the remaining heap is returned here.
The Go code never calls Pop on an empty heap. -/
def heapPop (h : List ExpireItem) : List ExpireItem :=
  if h.length = 0 then h
  else (heapDown (hSwap h 0 (h.length - 1)) 0 (h.length - 1)).dropLast

/-- An entry of the recency list: key, value and absolute expiry instant
(0 when the entry never expires). -/
structure Entry (V : Type) where
  key : String
  value : V
  expireAt : Int
deriving DecidableEq, Repr

/-- The LRU cache state of lru.go.  lenV, the Len method of the stored
Value interface, is passed to every operation.  evicted is the OnEvicted
log (see the header comment). -/
structure Cache (V : Type) where
  maxBytes : Int
  nbytes : Int
  ll : List (Entry V)
  expireHeap : List ExpireItem
  evicted : List (String × V)
deriving DecidableEq, Repr

/-- Byte size len(key) + value.Len() accounted for one entry. -/
def entrySize {V : Type} (lenV : V → Nat) (e : Entry V) : Int :=
  (e.key.length : Int) + (lenV e.value : Int)

/-- Sum of entry sizes over a list of entries. -/
def sumBytes {V : Type} (lenV : V → Nat) (l : List (Entry V)) : Int :=
  (l.map (entrySize lenV)).sum

/-- New(maxBytes, onEvicted): heap.Init on the fresh empty heap is a
no-op, so the state starts with every container empty. -/
def lruNew (V : Type) (maxBytes : Int) : Cache V :=
  { maxBytes := maxBytes, nbytes := 0, ll := [], expireHeap := [], evicted := [] }

/-- The map hit ele, ok := c.cache[key]: the entry of ll with this key. -/
def findEle {V : Type} (ll : List (Entry V)) (key : String) : Option (Entry V) :=
  ll.find? (fun e => e.key == key)

/-- RemoveOldest: evict the back of the recency list via removeElement
(unlink, decrement nbytes, log the OnEvicted call). -/
def removeOldest {V : Type} (lenV : V → Nat) (c : Cache V) : Cache V :=
  match c.ll.getLast? with
  | none => c
  | some e =>
    { c with ll := c.ll.dropLast,
             nbytes := c.nbytes - entrySize lenV e,
             evicted := c.evicted ++ [(e.key, e.value)] }

/-- removeElement applied to the list element that the map associates to
key (the Get expiry path and the CleanExpired path both reach
removeElement through such an element). -/
def removeKey {V : Type} (lenV : V → Nat) (c : Cache V) (key : String) : Cache V :=
  match findEle c.ll key with
  | none => c
  | some e =>
    { c with ll := c.ll.eraseP (fun x => x.key == key),
             nbytes := c.nbytes - entrySize lenV e,
             evicted := c.evicted ++ [(e.key, e.value)] }

/-- The body of Add before the eviction loop: update the existing entry
(MoveToFront, adjust nbytes by the length difference, overwrite value and
expireAt, push a fresh heap item when the new expireAt is not zero) or
insert a new entry at the front. -/
def addEntry {V : Type} (lenV : V → Nat) (c : Cache V) (key : String) (v : V)
    (expireAt : Int) : Cache V :=
  match findEle c.ll key with
  | some old =>
    { c with ll := ⟨key, v, expireAt⟩ :: c.ll.eraseP (fun x => x.key == key),
             nbytes := c.nbytes + ((lenV v : Int) - (lenV old.value : Int)),
             expireHeap :=
               if expireAt ≠ 0 then heapPush c.expireHeap ⟨expireAt, key⟩
               else c.expireHeap }
  | none =>
    { c with ll := ⟨key, v, expireAt⟩ :: c.ll,
             nbytes := c.nbytes + ((key.length : Nat) : Int) + (lenV v : Int),
             expireHeap :=
               if expireAt ≠ 0 then heapPush c.expireHeap ⟨expireAt, key⟩
               else c.expireHeap }

/-- The eviction loop of Add: while maxBytes is not 0 and maxBytes is
less than nbytes, call RemoveOldest.  Each iteration on a nonempty list
shortens the list by one, and under the byte-accounting invariant the
guard fails once the list is empty, so the fuel ll.length + 1 passed by
add covers every iteration the Go loop performs. -/
def evictLoop {V : Type} (lenV : V → Nat) : Nat → Cache V → Cache V
  | 0, c => c
  | fuel + 1, c =>
    if c.maxBytes ≠ 0 ∧ c.maxBytes < c.nbytes then
      evictLoop lenV fuel (removeOldest lenV c)
    else c

/-- Add(key, value, ttl) at the instant now: expireAt is now+ttl for a
positive ttl and the zero instant otherwise, then the entry is inserted
or updated and the eviction loop runs. -/
def add {V : Type} (lenV : V → Nat) (c : Cache V) (key : String) (v : V)
    (ttl now : Int) : Cache V :=
  let expireAt : Int := if 0 < ttl then now + ttl else 0
  let c1 := addEntry lenV c key v expireAt
  evictLoop lenV (c1.ll.length + 1) c1

/-- Get(key) at the instant now: a present entry that carries a nonzero
expireAt in the past is removed (inline expiry, returning a miss), an
alive entry moves to the front and is returned. -/
def get {V : Type} (lenV : V → Nat) (c : Cache V) (key : String) (now : Int) :
    Option V × Cache V :=
  match findEle c.ll key with
  | some e =>
    if e.expireAt ≠ 0 ∧ e.expireAt < now then (none, removeKey lenV c key)
    else (some e.value, { c with ll := e :: c.ll.eraseP (fun x => x.key == key) })
  | none => (none, c)

/-- The loop of CleanExpired: read the heap top, stop if it is not yet
expired, otherwise pop it and remove the key if the map still has it.
Each iteration pops one item, so the fuel expireHeap.length passed by
cleanExpired covers every iteration. -/
def cleanLoop {V : Type} (lenV : V → Nat) (now : Int) : Nat → Cache V → Cache V
  | 0, c => c
  | fuel + 1, c =>
    match c.expireHeap with
    | [] => c
    | item :: _ =>
      if item.expireAt < now then
        let c1 : Cache V := { c with expireHeap := heapPop c.expireHeap }
        if (findEle c1.ll item.key).isSome then
          cleanLoop lenV now fuel (removeKey lenV c1 item.key)
        else cleanLoop lenV now fuel c1
      else c

/-- CleanExpired at the instant now. -/
def cleanExpired {V : Type} (lenV : V → Nat) (c : Cache V) (now : Int) : Cache V :=
  cleanLoop lenV now c.expireHeap.length c

/-- One operation of the public LRU interface, with the instant at which
it is issued where the Go code reads time.Now(). -/
inductive Op (V : Type) where
  | add (key : String) (v : V) (ttl now : Int)
  | get (key : String) (now : Int)
  | removeOldest
  | cleanExpired (now : Int)

/-- Apply one operation to a cache state. -/
def applyOp {V : Type} (lenV : V → Nat) (c : Cache V) : Op V → Cache V
  | .add k v ttl now => add lenV c k v ttl now
  | .get k now => (get lenV c k now).2
  | .removeOldest => removeOldest lenV c
  | .cleanExpired now => cleanExpired lenV c now

/-- Run a sequence of operations from a fresh store. -/
def run (V : Type) (lenV : V → Nat) (maxBytes : Int) (ops : List (Op V)) : Cache V :=
  ops.foldl (applyOp lenV) (lruNew V maxBytes)

/-- The byte-accounting invariant: nbytes equals the summed size of the
live entries. -/
def Inv {V : Type} (lenV : V → Nat) (c : Cache V) : Prop :=
  c.nbytes = sumBytes lenV c.ll

/-- Concrete run for the tombstone behaviour of CleanExpired: an unbounded
store receives Add("k", "v", ttl 5) at instant 1 (expiry instant 6) and
then Add("k", "v", ttl 0) at instant 2 (no expiry; the heap item (6, "k")
stays behind as a tombstone). -/
def demoTombstone : Cache String :=
  add String.length
    (add String.length (lruNew String 0) "k" "v" 5 1)
    "k" "v" 0 2

end Lru

namespace CHash

/-- The consistent-hash Map of consistenthash.go.  The Go hash function
has type []byte to uint32; keys are hashed as strings here and the hash
is an arbitrary Nat-valued function (every uint32-valued function is an
instance, and all theorems hold for the larger class).  The Go int
conversion int(m.hash(...)) of a uint32 value never changes it.  The Go
position-to-node map is an association list whose insert operation is a
cons, so a lookup finds the most recent binding (last writer wins, as in
the Go map).  The nil-hash default (crc32.ChecksumIEEE) of New is outside
the model: a hash function is always supplied. -/
structure HMap where
  hash : String → Nat
  replicas : Nat
  keys : List Nat
  hashMap : List (Nat × String)

/-- New(replicas, fn) with an explicit hash function. -/
def ringNew (replicas : Nat) (hash : String → Nat) : HMap :=
  { hash := hash, replicas := replicas, keys := [], hashMap := [] }

/-- The body of Add for a single node identity: for each i below
replicas, hash strconv.Itoa(i) + key, append the position and bind it to
the node. -/
def addOne (m : HMap) (key : String) : HMap :=
  (List.range m.replicas).foldl
    (fun acc i =>
      { acc with keys := acc.keys ++ [acc.hash (toString i ++ key)],
                 hashMap := (acc.hash (toString i ++ key), key) :: acc.hashMap })
    m

/-- Add(keys...): the per-node loop followed by sort.Ints on the
positions.  Go sorts with an unstable in-place sort; on a list of Nat
positions the sorted result is unique, so insertion sort computes the
same list. -/
def ringAdd (m : HMap) (ks : List String) : HMap :=
  let m1 := ks.foldl addOne m
  { m1 with keys := m1.keys.insertionSort (· ≤ ·) }

/-- Loop of sort.Search(n, f): binary search maintaining i ≤ j; each
iteration strictly shrinks j - i, which starts at n, so the fuel n + 1
supplied by sortSearch bounds the iteration count and the translation is
exact. -/
def searchGo : Nat → (Nat → Bool) → Nat → Nat → Nat
  | 0, _, i, _ => i
  | fuel + 1, f, i, j =>
    if i < j then
      if f ((i + j) / 2) then searchGo fuel f i ((i + j) / 2)
      else searchGo fuel f ((i + j) / 2 + 1) j
    else i

/-- sort.Search(n, f): the smallest index in [0, n] at which f flips to
true, assuming f monotone (false then true), as the Go contract states. -/
def sortSearch (n : Nat) (f : Nat → Bool) : Nat :=
  searchGo (n + 1) f 0 n

/-- Get(key): empty ring yields the empty identity; otherwise binary
search for the first position at least hash(key) and read the node bound
to keys[idx % len(keys)] (the modulus performs the wrap to index 0). -/
def ringGet (m : HMap) (key : String) : String :=
  if m.keys.length = 0 then ""
  else
    (m.hashMap.lookup
      (m.keys.getD
        ((sortSearch m.keys.length
           (fun i => decide (m.hash key ≤ m.keys.getD i 0))) % m.keys.length) 0)).getD ""

/-- Modelled from the spec (section 4.D Get): return the node mapped at
the smallest stored position at least hash(key); when no stored position
qualifies, wrap to the smallest stored position overall; an empty ring
returns the empty identity.  Used as the specification side of the C6
refinement claim. -/
def specRingGet (m : HMap) (key : String) : String :=
  if m.keys = [] then ""
  else
    match (m.keys.filter (fun p => decide (m.hash key ≤ p))).min? with
    | some p => (m.hashMap.lookup p).getD ""
    | none =>
      match m.keys.min? with
      | some p => (m.hashMap.lookup p).getD ""
      | none => ""

/-- The hash of the C7 scenario: read the string as a decimal integer
(digits map to their value; the strings used are all digit strings). -/
def demoHash (s : String) : Nat :=
  s.data.foldl (fun n c => n * 10 + (c.toNat - 48)) 0

/-- The C7 ring: replicas 3, decimal hash, nodes "6", "4", "2" added in
that order, giving positions 2, 4, 6, 12, 14, 16, 22, 24, 26. -/
def demoRing : HMap :=
  ringAdd (ringNew 3 demoHash) ["6", "4", "2"]

/-- A partially built ring (nodes "6" and "4" only), used as the concrete
state of the C8 witness. -/
def demoRingTwo : HMap :=
  ringAdd (ringNew 3 demoHash) ["6", "4"]

/-- The ring positions one Add(key) appends: hash(itoa(i) + key) for i
below replicas.  Closed form of the Add loop, used by the theorems. -/
def nodeHashes (m : HMap) (key : String) : List Nat :=
  (List.range m.replicas).map (fun i => m.hash (toString i ++ key))

/-- The position-to-node bindings one Add(key) pushes, in loop order. -/
def nodePairs (m : HMap) (key : String) : List (Nat × String) :=
  (List.range m.replicas).map (fun i => (m.hash (toString i ++ key), key))

end CHash

namespace SFlight

/-- Program position of one caller inside Do of singleflight.go, for one
fixed key.  rid numbers the call records created for the key in creation
order; an owner carries the rid of the record it installed, a waiter the
rid of the record it joined. -/
inductive Phase where
  | entered
  | waiting (rid : Nat)
  | installed (rid : Nat)
  | running (rid : Nat)
  | finished (rid : Nat)
  | deleted (rid : Nat)
  | returned (rid : Nat)
deriving DecidableEq, Repr

/-- True on the phase of an owner that has installed its record but not
yet invoked fn. -/
def isInstalledB : Phase → Bool
  | .installed _ => true
  | _ => false

/-- State of one singleflight Group projected to a single key, shared by
any number of caller threads.  slot is g.m[key] (the record id in the
map, if present), nextId counts the records ever created, doneIds lists
the records whose fn has completed (their wg latch is signalled), and
invocations counts the started executions of fn.  phases has one entry
per caller. -/
structure SFState where
  phases : List Phase
  slot : Option Nat
  nextId : Nat
  doneIds : List Nat
  invocations : Nat
deriving DecidableEq, Repr

/-- One atomic step of caller tid; the mutex makes each protected region
of Do a single transition:
entered: lock, lazily init the map, check g.m[key]; a present record is
  joined (c.wg.Wait begins), otherwise a fresh record is installed
  (c := new(call), c.wg.Add(1), g.m[key] = c) and the lock released;
installed: the owner invokes fn (execution begins);
running: fn returns, c.val and c.err are written, c.wg.Done() signals;
finished: lock, delete(g.m, key), unlock;
deleted: the owner returns (c.val, c.err);
waiting: c.wg.Wait() unblocks only once the record is done, and the
  waiter then returns (c.val, c.err).
A caller that has returned, or a tid out of range, has no step. -/
def step (s : SFState) (tid : Nat) : SFState :=
  match s.phases[tid]? with
  | none => s
  | some ph =>
    match ph with
    | .entered =>
      match s.slot with
      | some r => { s with phases := s.phases.set tid (.waiting r) }
      | none =>
        { s with phases := s.phases.set tid (.installed s.nextId),
                 slot := some s.nextId,
                 nextId := s.nextId + 1 }
    | .waiting r =>
      if r ∈ s.doneIds then { s with phases := s.phases.set tid (.returned r) }
      else s
    | .installed r =>
      { s with phases := s.phases.set tid (.running r),
               invocations := s.invocations + 1 }
    | .running r =>
      { s with phases := s.phases.set tid (.finished r), doneIds := r :: s.doneIds }
    | .finished r =>
      { s with phases := s.phases.set tid (.deleted r), slot := none }
    | .deleted r => { s with phases := s.phases.set tid (.returned r) }
    | .returned _ => s

/-- n callers, each having entered Do(key, fn) and taken no step yet (in
Go: each goroutine has called Do and is about to acquire the mutex), on
an idle group. -/
def sfInit (n : Nat) : SFState :=
  { phases := List.replicate n .entered, slot := none, nextId := 0,
    doneIds := [], invocations := 0 }

/-- Execute a schedule: a list of thread ids, each performing its next
enabled step in order.  Quantifying over all schedules covers every
interleaving of the callers. -/
def sfRun (n : Nat) (sched : List Nat) : SFState :=
  sched.foldl step (sfInit n)

/-- A caller in a mid-owner phase: it installed the record and has not
yet deleted it from the map. -/
def midOwner (s : SFState) (t r : Nat) : Prop :=
  s.phases[t]? = some (.installed r) ∨ s.phases[t]? = some (.running r) ∨
    s.phases[t]? = some (.finished r)

/-- A caller in any owner phase of record r. -/
def ownerOf (s : SFState) (t r : Nat) : Prop :=
  midOwner s t r ∨ s.phases[t]? = some (.deleted r)

/-- The record id a phase refers to, if any. -/
def phaseRid : Phase → Option Nat
  | .entered => none
  | .waiting r => some r
  | .installed r => some r
  | .running r => some r
  | .finished r => some r
  | .deleted r => some r
  | .returned r => some r

/-- The inductive invariant of the singleflight model:
1. a mid-owner of r implies the map holds exactly r;
2. records have at most one owner;
3. every mentioned record id, the slot, and every done id is below
   nextId;
4. a record being executed (or installed and not yet executed) is not
   done, and a record whose owner is past running is done, as is the
   record of any caller that returned;
5. invocations plus the number of installed-but-not-yet-running owners
   never exceeds the number of records created. -/
def SFInv (s : SFState) : Prop :=
  (∀ t r, midOwner s t r → s.slot = some r) ∧
  (∀ t1 t2 r, ownerOf s t1 r → ownerOf s t2 r → t1 = t2) ∧
  (∀ (t : Nat) (ph : Phase) (r : Nat), s.phases[t]? = some ph → phaseRid ph = some r →
    r < s.nextId) ∧
  (∀ r, s.slot = some r → r < s.nextId) ∧
  (∀ r, r ∈ s.doneIds → r < s.nextId) ∧
  (∀ (t r : Nat),
    s.phases[t]? = some (Phase.installed r) ∨ s.phases[t]? = some (Phase.running r) →
    r ∉ s.doneIds) ∧
  (∀ (t r : Nat),
    s.phases[t]? = some (Phase.finished r) ∨ s.phases[t]? = some (Phase.deleted r) ∨
    s.phases[t]? = some (Phase.returned r) → r ∈ s.doneIds) ∧
  s.invocations + s.phases.countP isInstalledB ≤ s.nextId

end SFlight

namespace GeeCache

/-- ByteView of byteview.go: an immutable byte payload.  Bytes are Nat
(nothing in the claims depends on the 0..255 range). -/
structure ByteView where
  b : List Nat
deriving DecidableEq, Repr

/-- Len of byteview.go. -/
def ByteView.len (v : ByteView) : Nat := v.b.length

/-- cloneBytes of byteview.go; in the pure model the copy is the same
list, since without mutation aliasing is unobservable. -/
def cloneBytes (b : List Nat) : List Nat := b

/-- Modelled from the spec: the guarded cache of section 4.C, whose
source file (cache.go) is not under src/.  The mutex is elided (the
claims settled against it are sequential) and the underlying LRU is
constructed lazily on first use with the configured maxBytes; a get
before any use misses without constructing it. -/
structure GCache where
  cacheBytes : Int
  lru : Option (Lru.Cache ByteView)

/-- Guarded-cache add (spec section 4.C): construct the LRU on first
use, then delegate. -/
def gcacheAdd (c : GCache) (key : String) (v : ByteView) (ttl now : Int) : GCache :=
  match c.lru with
  | none =>
    { c with lru := some (Lru.add ByteView.len (Lru.lruNew ByteView c.cacheBytes) key v ttl now) }
  | some l => { c with lru := some (Lru.add ByteView.len l key v ttl now) }

/-- Guarded-cache get (spec section 4.C): a never-used cache misses;
otherwise delegate (the LRU get may mutate, so the new state is
returned). -/
def gcacheGet (c : GCache) (key : String) (now : Int) : Option ByteView × GCache :=
  match c.lru with
  | none => (none, c)
  | some l => ((Lru.get ByteView.len l key now).1,
               { c with lru := some (Lru.get ByteView.len l key now).2 })

/-- Modelled from the spec: the wire request of section 4.F (package
geecachepb is not under src/): string fields group and key.  The
response carries only the value bytes, so a peer returns them directly. -/
structure PbRequest where
  group : String
  key : String

/-- PeerGetter of peers.go: fills the response value or fails. -/
def PeerGetter : Type := PbRequest → Except String (List Nat)

/-- The Group of geecache.go.  The external Getter yields bytes or an
error; getterLog records the keys of its invocations in order, which
makes invocation counts observable.  peers models the registered
PeerPicker: PickPeer returns a peer exactly when the key is owned by a
non-self peer.  The claims settled against this model are sequential
(single caller, idle coalescer), so loader.Do(key, fn) invokes fn
directly; the concurrent behaviour of Do itself is the subject of the
SFlight namespace. -/
structure Group where
  name : String
  getter : String → Except String (List Nat)
  mainCache : GCache
  peers : Option (String → Option PeerGetter)
  getterLog : List String

/-- populateCache: loaded data is stored with ttl 0 (no expiry). -/
def populateCache (g : Group) (key : String) (value : ByteView) (now : Int) : Group :=
  { g with mainCache := gcacheAdd g.mainCache key value 0 now }

/-- getLocally: invoke the external Getter (appending to the log); an
error is surfaced with the zero ByteView and the cache untouched; on
success the bytes are cloned into a ByteView, the cache is populated and
the view returned. -/
def getLocally (g : Group) (key : String) (now : Int) :
    Group × ByteView × Option String :=
  match g.getter key with
  | .error e => ({ g with getterLog := g.getterLog ++ [key] }, ⟨[]⟩, some e)
  | .ok bytes =>
    (populateCache { g with getterLog := g.getterLog ++ [key] } key ⟨cloneBytes bytes⟩ now,
     ⟨cloneBytes bytes⟩, none)

/-- getFromPeer: ask the peer with (group name, key); on success the
response value becomes the ByteView. -/
def getFromPeer (g : Group) (peer : PeerGetter) (key : String) :
    ByteView × Option String :=
  match peer { group := g.name, key := key } with
  | .error e => (⟨[]⟩, some e)
  | .ok value => (⟨value⟩, none)

/-- load: inside the coalesced function, try a registered peer that owns
the key; peer success returns the view without touching the cache; peer
failure is logged in Go and falls through to the local path, as does a
missing picker or self-ownership. -/
def load (g : Group) (key : String) (now : Int) :
    Group × ByteView × Option String :=
  match g.peers with
  | some pick =>
    match pick key with
    | some peer =>
      match getFromPeer g peer key with
      | (value, none) => (g, value, none)
      | (_, some _) => getLocally g key now
    | none => getLocally g key now
  | none => getLocally g key now

/-- Get of geecache.go: reject the empty key, return a local hit,
otherwise load. -/
def groupGet (g : Group) (key : String) (now : Int) :
    Group × ByteView × Option String :=
  if key = "" then (g, ⟨[]⟩, some "key is required")
  else
    match gcacheGet g.mainCache key now with
    | (some v, mc) => ({ g with mainCache := mc }, v, none)
    | (none, mc) => load { g with mainCache := mc } key now

/-- The key is absent from a guarded cache (no entry, expired or not). -/
def gcMiss (c : GCache) (key : String) : Prop :=
  match c.lru with
  | none => True
  | some l => Lru.findEle l.ll key = none

/-- The key is absent from the local cache (a clean miss). -/
def cleanMiss (g : Group) (key : String) : Prop :=
  gcMiss g.mainCache key

/-- The load path for this key reaches the local data source: there is
no picker, or the picker yields no peer, or the peer call fails. -/
def usesLocal (g : Group) (key : String) : Prop :=
  match g.peers with
  | none => True
  | some pick =>
    match pick key with
    | none => True
    | some peer => ∃ e, peer { group := g.name, key := key } = .error e

/-- An external Getter that always fails, for the C5 witness. -/
def demoGetterFail : String → Except String (List Nat) :=
  fun _ => .error "boom"

/-- The C5 witness group: no peers, failing getter, unused cache. -/
def demoGroupFail : Group :=
  { name := "g", getter := demoGetterFail,
    mainCache := { cacheBytes := 100, lru := none }, peers := none, getterLog := [] }

/-- A peer that answers every request with the bytes [7, 8], for the C9
witness. -/
def demoPeer : PeerGetter := fun _ => .ok [7, 8]

/-- The C9 witness group: a picker that routes every key to demoPeer. -/
def demoGroupPeer : Group :=
  { name := "g", getter := demoGetterFail,
    mainCache := { cacheBytes := 100, lru := none },
    peers := some (fun _ => some demoPeer), getterLog := [] }

end GeeCache

-- ===================================================================
-- Theorems
-- ===================================================================

namespace Lru

theorem entrySize_nonneg {V : Type} (lenV : V → Nat) (e : Entry V) :
    0 ≤ entrySize lenV e := by
  unfold entrySize
  positivity

theorem sumBytes_nil {V : Type} (lenV : V → Nat) : sumBytes lenV ([] : List (Entry V)) = 0 :=
  rfl

theorem sumBytes_cons {V : Type} (lenV : V → Nat) (e : Entry V) (l : List (Entry V)) :
    sumBytes lenV (e :: l) = entrySize lenV e + sumBytes lenV l := by
  simp [sumBytes]

theorem sumBytes_append {V : Type} (lenV : V → Nat) (l₁ l₂ : List (Entry V)) :
    sumBytes lenV (l₁ ++ l₂) = sumBytes lenV l₁ + sumBytes lenV l₂ := by
  simp [sumBytes]

theorem sumBytes_nonneg {V : Type} (lenV : V → Nat) (l : List (Entry V)) :
    0 ≤ sumBytes lenV l := by
  induction l with
  | nil => simp [sumBytes]
  | cons e t ih =>
    rw [sumBytes_cons]
    have := entrySize_nonneg lenV e
    omega

/-- A successful find? splits the list around the found element, and
eraseP with the same predicate removes exactly that element. -/
theorem find?_eraseP_decomp {α : Type} {p : α → Bool} :
    ∀ {l : List α} {e : α}, l.find? p = some e →
      ∃ l₁ l₂, l = l₁ ++ e :: l₂ ∧ l.eraseP p = l₁ ++ l₂ ∧ p e = true := by
  intro l
  induction l with
  | nil => intro e h; simp [List.find?] at h
  | cons a t ih =>
    intro e h
    rw [List.find?_cons] at h
    cases hp : p a with
    | true =>
      rw [hp] at h
      simp only [Option.some_inj] at h
      subst h
      exact ⟨[], t, by simp, by simp [List.eraseP_cons, hp], hp⟩
    | false =>
      rw [hp] at h
      simp only at h
      obtain ⟨l₁, l₂, hsplit, herase, hpe⟩ := ih h
      refine ⟨a :: l₁, l₂, ?_, ?_, hpe⟩
      · simp [hsplit]
      · simp [List.eraseP_cons, hp, herase]

/-- The key of the entry found by the map lookup is the looked-up key. -/
theorem findEle_key {V : Type} {ll : List (Entry V)} {key : String} {e : Entry V}
    (h : findEle ll key = some e) : e.key = key := by
  have := List.find?_some h
  exact beq_iff_eq.mp this

theorem inv_removeOldest {V : Type} (lenV : V → Nat) {c : Cache V}
    (h : Inv lenV c) : Inv lenV (removeOldest lenV c) := by
  unfold removeOldest
  cases hlast : c.ll.getLast? with
  | none => exact h
  | some e =>
    rcases List.eq_nil_or_concat c.ll with hnil | ⟨l', a, hcat⟩
    · rw [hnil] at hlast
      simp at hlast
    · rw [List.concat_eq_append] at hcat
      rw [hcat, List.getLast?_concat] at hlast
      have hea : e = a := Option.some_inj.mp hlast.symm
      subst hea
      unfold Inv at h ⊢
      simp only [hcat, List.dropLast_concat]
      rw [hcat, sumBytes_append, sumBytes_cons, sumBytes_nil] at h
      omega

theorem inv_removeKey {V : Type} (lenV : V → Nat) {c : Cache V} (key : String)
    (h : Inv lenV c) : Inv lenV (removeKey lenV c key) := by
  unfold removeKey
  cases hf : findEle c.ll key with
  | none => exact h
  | some e =>
    obtain ⟨l₁, l₂, hsplit, herase, _⟩ := find?_eraseP_decomp hf
    unfold Inv at h ⊢
    simp only [herase]
    rw [hsplit, sumBytes_append, sumBytes_cons] at h
    rw [sumBytes_append]
    omega

theorem inv_addEntry {V : Type} (lenV : V → Nat) {c : Cache V} (key : String)
    (v : V) (expireAt : Int) (h : Inv lenV c) :
    Inv lenV (addEntry lenV c key v expireAt) := by
  unfold addEntry
  cases hf : findEle c.ll key with
  | none =>
    unfold Inv at h ⊢
    simp only [sumBytes_cons, entrySize]
    omega
  | some old =>
    obtain ⟨l₁, l₂, hsplit, herase, _⟩ := find?_eraseP_decomp hf
    have hkey := findEle_key hf
    unfold Inv at h ⊢
    simp only [herase, sumBytes_cons, sumBytes_append, entrySize]
    rw [hsplit, sumBytes_append, sumBytes_cons] at h
    simp only [entrySize] at h
    rw [hkey] at h
    omega

theorem inv_evictLoop {V : Type} (lenV : V → Nat) :
    ∀ (fuel : Nat) {c : Cache V}, Inv lenV c → Inv lenV (evictLoop lenV fuel c) := by
  intro fuel
  induction fuel with
  | zero => intro c h; exact h
  | succ n ih =>
    intro c h
    unfold evictLoop
    by_cases hg : c.maxBytes ≠ 0 ∧ c.maxBytes < c.nbytes
    · rw [if_pos hg]
      exact ih (inv_removeOldest lenV h)
    · rw [if_neg hg]
      exact h

theorem inv_add {V : Type} (lenV : V → Nat) {c : Cache V} (key : String) (v : V)
    (ttl now : Int) (h : Inv lenV c) : Inv lenV (add lenV c key v ttl now) := by
  unfold add
  exact inv_evictLoop lenV _ (inv_addEntry lenV key v _ h)

theorem inv_get {V : Type} (lenV : V → Nat) {c : Cache V} (key : String)
    (now : Int) (h : Inv lenV c) : Inv lenV (get lenV c key now).2 := by
  unfold get
  cases hf : findEle c.ll key with
  | none => exact h
  | some e =>
    dsimp only
    by_cases hexp : e.expireAt ≠ 0 ∧ e.expireAt < now
    · rw [if_pos hexp]
      exact inv_removeKey lenV key h
    · rw [if_neg hexp]
      obtain ⟨l₁, l₂, hsplit, herase, _⟩ := find?_eraseP_decomp hf
      unfold Inv at h ⊢
      simp only [herase, sumBytes_cons, sumBytes_append]
      rw [hsplit, sumBytes_append, sumBytes_cons] at h
      omega

theorem inv_cleanLoop {V : Type} (lenV : V → Nat) (now : Int) :
    ∀ (fuel : Nat) {c : Cache V}, Inv lenV c → Inv lenV (cleanLoop lenV now fuel c) := by
  intro fuel
  induction fuel with
  | zero => intro c h; exact h
  | succ n ih =>
    intro c h
    unfold cleanLoop
    cases hh : c.expireHeap with
    | nil => exact h
    | cons item rest =>
      dsimp only
      by_cases ht : item.expireAt < now
      · rw [if_pos ht]
        have h1 : Inv lenV ({ c with expireHeap := heapPop c.expireHeap } : Cache V) := h
        by_cases hfind :
            ((findEle ({ c with expireHeap := heapPop c.expireHeap } : Cache V).ll
              item.key).isSome = true)
        · rw [if_pos hfind]
          exact ih (inv_removeKey lenV item.key h1)
        · rw [if_neg hfind]
          exact ih h1
      · rw [if_neg ht]
        exact h

theorem inv_cleanExpired {V : Type} (lenV : V → Nat) {c : Cache V} (now : Int)
    (h : Inv lenV c) : Inv lenV (cleanExpired lenV c now) :=
  inv_cleanLoop lenV now _ h

theorem inv_applyOp {V : Type} (lenV : V → Nat) {c : Cache V} (op : Op V)
    (h : Inv lenV c) : Inv lenV (applyOp lenV c op) := by
  cases op with
  | add k v ttl now => exact inv_add lenV k v ttl now h
  | get k now => exact inv_get lenV k now h
  | removeOldest => exact inv_removeOldest lenV h
  | cleanExpired now => exact inv_cleanLoop lenV now _ h

theorem inv_run (V : Type) (lenV : V → Nat) (maxBytes : Int) (ops : List (Op V)) :
    Inv lenV (run V lenV maxBytes ops) := by
  unfold run
  have hstart : Inv lenV (lruNew V maxBytes) := by
    unfold Inv lruNew sumBytes
    simp
  generalize lruNew V maxBytes = c at hstart ⊢
  induction ops generalizing c with
  | nil => exact hstart
  | cons op rest ih =>
    simp only [List.foldl_cons]
    exact ih _ (inv_applyOp lenV op hstart)

theorem removeOldest_nil {V : Type} (lenV : V → Nat) {c : Cache V}
    (h : c.ll = []) : removeOldest lenV c = c := by
  unfold removeOldest
  rw [h]
  rfl

theorem removeOldest_concat {V : Type} (lenV : V → Nat) {c : Cache V}
    {l' : List (Entry V)} {a : Entry V} (hcat : c.ll = l' ++ [a]) :
    removeOldest lenV c =
      { c with ll := l',
               nbytes := c.nbytes - entrySize lenV a,
               evicted := c.evicted ++ [(a.key, a.value)] } := by
  unfold removeOldest
  rw [hcat, List.getLast?_concat]
  simp [List.dropLast_concat, hcat]

theorem addEntry_shape {V : Type} (lenV : V → Nat) (c : Cache V) (key : String)
    (v : V) (expireAt : Int) :
    (addEntry lenV c key v expireAt).maxBytes = c.maxBytes ∧
    (addEntry lenV c key v expireAt).evicted = c.evicted ∧
    ∃ rest, (addEntry lenV c key v expireAt).ll = ⟨key, v, expireAt⟩ :: rest ∧
      ∀ e ∈ c.ll, e ∈ rest ∨ e.key = key := by
  unfold addEntry
  cases hf : findEle c.ll key with
  | none =>
    refine ⟨rfl, rfl, c.ll, rfl, fun e he => Or.inl he⟩
  | some old =>
    obtain ⟨l₁, l₂, hsplit, herase, hpe⟩ := find?_eraseP_decomp hf
    refine ⟨rfl, rfl, c.ll.eraseP (fun x => x.key == key), rfl, fun e he => ?_⟩
    rw [hsplit] at he
    rcases List.mem_append.mp he with h1 | h2
    · exact Or.inl (by rw [herase]; exact List.mem_append.mpr (Or.inl h1))
    · rcases List.mem_cons.mp h2 with heq | h3
      · right
        rw [heq]
        exact findEle_key hf
      · exact Or.inl (by rw [herase]; exact List.mem_append.mpr (Or.inr h3))

theorem evictLoop_maxBytes {V : Type} (lenV : V → Nat) :
    ∀ (fuel : Nat) (c : Cache V), (evictLoop lenV fuel c).maxBytes = c.maxBytes := by
  intro fuel
  induction fuel with
  | zero => intro c; rfl
  | succ n ih =>
    intro c
    unfold evictLoop
    by_cases hg : c.maxBytes ≠ 0 ∧ c.maxBytes < c.nbytes
    · rw [if_pos hg, ih]
      unfold removeOldest
      cases c.ll.getLast? <;> rfl
    · rw [if_neg hg]

theorem evictLoop_le {V : Type} (lenV : V → Nat) :
    ∀ (fuel : Nat) (c : Cache V), Inv lenV c → 0 < c.maxBytes →
      c.ll.length ≤ fuel → (evictLoop lenV fuel c).nbytes ≤ c.maxBytes := by
  intro fuel
  induction fuel with
  | zero =>
    intro c hinv hpos hlen
    have hnil : c.ll = [] := List.eq_nil_of_length_eq_zero (Nat.le_zero.mp hlen)
    have h0 : c.nbytes = 0 := by rw [hinv, hnil, sumBytes_nil]
    show c.nbytes ≤ c.maxBytes
    omega
  | succ n ih =>
    intro c hinv hpos hlen
    unfold evictLoop
    by_cases hg : c.maxBytes ≠ 0 ∧ c.maxBytes < c.nbytes
    · rw [if_pos hg]
      rcases List.eq_nil_or_concat c.ll with hnil | ⟨l', a, hcat⟩
      · exfalso
        have h0 : c.nbytes = 0 := by rw [hinv, hnil, sumBytes_nil]
        omega
      · rw [List.concat_eq_append] at hcat
        have hro := removeOldest_concat lenV hcat
        have hlen' : (removeOldest lenV c).ll.length ≤ n := by
          rw [hro]
          show l'.length ≤ n
          have : c.ll.length = l'.length + 1 := by rw [hcat]; simp
          omega
        have hmax : (removeOldest lenV c).maxBytes = c.maxBytes := by rw [hro]
        have := ih (removeOldest lenV c) (inv_removeOldest lenV hinv)
          (by rw [hmax]; exact hpos) hlen'
        rw [hmax] at this
        exact this
    · rw [if_neg hg]
      have hne : c.maxBytes ≠ 0 := by omega
      have : ¬ (c.maxBytes < c.nbytes) := fun hb => hg ⟨hne, hb⟩
      omega

theorem evictLoop_empty {V : Type} (lenV : V → Nat) :
    ∀ (fuel : Nat) (c : Cache V), c.ll = [] → evictLoop lenV fuel c = c := by
  intro fuel
  induction fuel with
  | zero => intro c _; rfl
  | succ n ih =>
    intro c h
    unfold evictLoop
    by_cases hg : c.maxBytes ≠ 0 ∧ c.maxBytes < c.nbytes
    · rw [if_pos hg, removeOldest_nil lenV h]
      exact ih c h
    · rw [if_neg hg]

/-- If the head entry alone exceeds maxBytes, the eviction loop removes
every entry, logging the OnEvicted calls back to front. -/
theorem evictLoop_flush {V : Type} (lenV : V → Nat) :
    ∀ (fuel : Nat) (c : Cache V) (e : Entry V) (rest : List (Entry V)),
      Inv lenV c → c.ll = e :: rest → c.maxBytes ≠ 0 →
      c.maxBytes < entrySize lenV e → c.ll.length ≤ fuel →
      (evictLoop lenV fuel c).ll = [] ∧
      (evictLoop lenV fuel c).evicted =
        c.evicted ++ (c.ll.reverse.map (fun x => (x.key, x.value))) := by
  intro fuel
  induction fuel with
  | zero =>
    intro c e rest _ hll _ _ hlen
    exfalso
    rw [hll] at hlen
    simp at hlen
  | succ n ih =>
    intro c e rest hinv hll hne hbig hlen
    have hguard : c.maxBytes ≠ 0 ∧ c.maxBytes < c.nbytes := by
      refine ⟨hne, ?_⟩
      have hsum : c.nbytes = entrySize lenV e + sumBytes lenV rest := by
        rw [hinv, hll, sumBytes_cons]
      have := sumBytes_nonneg lenV rest
      omega
    unfold evictLoop
    rw [if_pos hguard]
    rcases List.eq_nil_or_concat rest with hrnil | ⟨mid, last, hrcat⟩
    · subst hrnil
      have hcat : c.ll = [] ++ [e] := by simpa using hll
      have hro := removeOldest_concat lenV hcat
      rw [hro]
      rw [evictLoop_empty lenV n _ rfl]
      constructor
      · rfl
      · rw [hll]
        simp
    · rw [List.concat_eq_append] at hrcat
      have hcat : c.ll = (e :: mid) ++ [last] := by rw [hll, hrcat]; rfl
      have hro := removeOldest_concat lenV hcat
      have hinv' : Inv lenV (removeOldest lenV c) := inv_removeOldest lenV hinv
      have hll' : (removeOldest lenV c).ll = e :: mid := by rw [hro]
      have hne' : (removeOldest lenV c).maxBytes ≠ 0 := by rw [hro]; exact hne
      have hbig' : (removeOldest lenV c).maxBytes < entrySize lenV e := by
        rw [hro]; exact hbig
      have hlen' : (removeOldest lenV c).ll.length ≤ n := by
        rw [hll', List.length_cons]
        have : c.ll.length = mid.length + 1 + 1 := by rw [hcat]; simp
        omega
      obtain ⟨hl0, hev0⟩ := ih (removeOldest lenV c) e mid hinv' hll' hne' hbig' hlen'
      refine ⟨hl0, ?_⟩
      rw [hev0, hll', hro]
      rw [hcat]
      simp

theorem add_unfold {V : Type} (lenV : V → Nat) (c : Cache V) (key : String)
    (v : V) (ttl now : Int) :
    add lenV c key v ttl now =
      evictLoop lenV
        ((addEntry lenV c key v (if 0 < ttl then now + ttl else 0)).ll.length + 1)
        (addEntry lenV c key v (if 0 < ttl then now + ttl else 0)) := rfl

/-- C2, part of the proof shared with C10: the insert phase of Add keeps
the accounting invariant and the maxBytes and evicted fields. -/
theorem inv_addEntry_of {V : Type} (lenV : V → Nat) {c : Cache V} (key : String)
    (v : V) (expireAt : Int) (h : Inv lenV c) :
    Inv lenV (addEntry lenV c key v expireAt) :=
  inv_addEntry lenV key v expireAt h

/-- C2: with maxBytes positive, nbytes is at most maxBytes after any Add
on a state satisfying the accounting invariant (every reachable state
does, by lru_nbytes_accounting); with maxBytes zero, Add never evicts. -/
theorem lru_add_respects_maxBytes {V : Type} (lenV : V → Nat) (c : Cache V)
    (key : String) (v : V) (ttl now : Int) (hinv : Inv lenV c) :
    (0 < c.maxBytes → (add lenV c key v ttl now).nbytes ≤ c.maxBytes) ∧
    (c.maxBytes = 0 → (add lenV c key v ttl now).evicted = c.evicted) := by
  have hshape := addEntry_shape lenV c key v (if 0 < ttl then now + ttl else 0)
  obtain ⟨hmax, hev, _⟩ := hshape
  constructor
  · intro hpos
    rw [add_unfold]
    have := evictLoop_le lenV
      ((addEntry lenV c key v (if 0 < ttl then now + ttl else 0)).ll.length + 1)
      (addEntry lenV c key v (if 0 < ttl then now + ttl else 0))
      (inv_addEntry lenV key v _ hinv) (by rw [hmax]; exact hpos) (by omega)
    rw [hmax] at this
    exact this
  · intro h0
    rw [add_unfold]
    unfold evictLoop
    rw [if_neg (by rw [hmax, h0]; simp)]
    exact hev

/-- Witness for lru_add_respects_maxBytes at a concrete input: a fresh
store with maxBytes 10 and an Add of a 13-byte value. -/
theorem lru_add_respects_maxBytes_witness :
    Inv String.length (lruNew String 10) ∧
    ((0 < (lruNew String 10).maxBytes →
      (add String.length (lruNew String 10) "k1" "1234567890123" 0 1).nbytes ≤
        (lruNew String 10).maxBytes) ∧
     ((lruNew String 10).maxBytes = 0 →
      (add String.length (lruNew String 10) "k1" "1234567890123" 0 1).evicted =
        (lruNew String 10).evicted)) :=
  ⟨by unfold Inv; decide,
   lru_add_respects_maxBytes String.length (lruNew String 10) "k1" "1234567890123" 0 1
     (by unfold Inv; decide)⟩

/-- C3: for every operation sequence from a fresh store, nbytes equals
the summed byte size len(key) + value.Len() of the live entries. -/
theorem lru_nbytes_accounting (V : Type) (lenV : V → Nat) (maxBytes : Int)
    (ops : List (Op V)) :
    (run V lenV maxBytes ops).nbytes = sumBytes lenV (run V lenV maxBytes ops).ll :=
  inv_run V lenV maxBytes ops

/-- C4: the code removes a key whose expiry was cleared.  After
Add("k", "v", ttl 5) at instant 1 and Add("k", "v", ttl 0) at instant 2,
the entry never expires, and Get far in the future still returns it; yet
CleanExpired at instant 10 pops the stale heap item (6, "k"), finds "k"
in the map, and removes the live never-expiring entry, logging an
OnEvicted call for it. -/
theorem lru_cleanExpired_removes_refreshed_key :
    (get String.length demoTombstone "k" 1000).1 = some "v" ∧
    findEle (cleanExpired String.length demoTombstone 10).ll "k" = none ∧
    (cleanExpired String.length demoTombstone 10).evicted = [("k", "v")] := by
  decide

/-- C10: an Add whose entry alone exceeds a positive maxBytes leaves the
store empty, fires OnEvicted for the added key itself and for every
previously live key, and a subsequent Get for the key misses. -/
theorem lru_add_oversized_empties {V : Type} (lenV : V → Nat) (c : Cache V)
    (key : String) (v : V) (ttl now now2 : Int) (hinv : Inv lenV c)
    (hpos : 0 < c.maxBytes)
    (hbig : c.maxBytes < (key.length : Int) + (lenV v : Int)) :
    (add lenV c key v ttl now).ll = [] ∧
    (key, v) ∈ (add lenV c key v ttl now).evicted ∧
    (∀ e ∈ c.ll, e.key ∈ (add lenV c key v ttl now).evicted.map Prod.fst) ∧
    (get lenV (add lenV c key v ttl now) key now2).1 = none := by
  have hshape := addEntry_shape lenV c key v (if 0 < ttl then now + ttl else 0)
  obtain ⟨hmax, hev, rest, hll, hmem⟩ := hshape
  have hne : c.maxBytes ≠ 0 := by omega
  have hsize : entrySize lenV (⟨key, v, (if 0 < ttl then now + ttl else 0)⟩ : Entry V) =
      (key.length : Int) + (lenV v : Int) := rfl
  have hflush := evictLoop_flush lenV
    ((addEntry lenV c key v (if 0 < ttl then now + ttl else 0)).ll.length + 1)
    (addEntry lenV c key v (if 0 < ttl then now + ttl else 0))
    ⟨key, v, (if 0 < ttl then now + ttl else 0)⟩ rest
    (inv_addEntry lenV key v _ hinv) hll (by rw [hmax]; exact hne)
    (by rw [hmax, hsize]; exact hbig) (by omega)
  rw [← add_unfold] at hflush
  obtain ⟨hempty, hevicted⟩ := hflush
  have hkv : (key, v) ∈ (add lenV c key v ttl now).evicted := by
    rw [hevicted, hev]
    apply List.mem_append.mpr
    right
    apply List.mem_map.mpr
    refine ⟨⟨key, v, (if 0 < ttl then now + ttl else 0)⟩, ?_, rfl⟩
    rw [List.mem_reverse, hll]
    exact List.mem_cons_self _ _
  refine ⟨hempty, hkv, ?_, ?_⟩
  · intro e he
    rcases hmem e he with hin | hkey
    · apply List.mem_map.mpr
      refine ⟨(e.key, e.value), ?_, rfl⟩
      rw [hevicted, hev]
      apply List.mem_append.mpr
      right
      apply List.mem_map.mpr
      refine ⟨e, ?_, rfl⟩
      rw [List.mem_reverse, hll]
      exact List.mem_cons_of_mem _ hin
    · apply List.mem_map.mpr
      exact ⟨(key, v), hkv, hkey.symm⟩
  · unfold get
    rw [hempty]
    rfl

end Lru

namespace CHash

/-- min? on a list of Nat returns an element that is a lower bound. -/
theorem natMin?_spec {l : List Nat} {a : Nat} :
    l.min? = some a ↔ a ∈ l ∧ ∀ b ∈ l, a ≤ b :=
  List.min?_eq_some_iff (fun a => Nat.le_refl a) (fun a b => min_choice a b)
    (fun a b c => Nat.le_min)

/-- Characterisation of the sort.Search loop on a predicate that is
monotone below n: the result r lies between i and j, everything below r
is false and everything from r up to n is true. -/
theorem searchGo_spec (f : Nat → Bool) (n : Nat)
    (mono : ∀ a b, a ≤ b → b < n → f a = true → f b = true) :
    ∀ (fuel i j : Nat), j - i < fuel → i ≤ j → j ≤ n →
      (∀ k, k < i → f k = false) → (∀ k, j ≤ k → k < n → f k = true) →
      i ≤ searchGo fuel f i j ∧ searchGo fuel f i j ≤ j ∧
      (∀ k, k < searchGo fuel f i j → f k = false) ∧
      (∀ k, searchGo fuel f i j ≤ k → k < n → f k = true) := by
  intro fuel
  induction fuel with
  | zero =>
    intro i j hfuel _ _ _ _
    exact absurd hfuel (by omega)
  | succ m ih =>
    intro i j hfuel hij hjn hleft hright
    unfold searchGo
    by_cases hlt : i < j
    · rw [if_pos hlt]
      have hhi : i ≤ (i + j) / 2 := by omega
      have hhj : (i + j) / 2 < j := by omega
      cases hfh : f ((i + j) / 2) with
      | true =>
        rw [if_pos rfl]
        have hright' : ∀ k, (i + j) / 2 ≤ k → k < n → f k = true := by
          intro k hk hkn
          exact mono ((i + j) / 2) k hk hkn hfh
        obtain ⟨ha1, ha2, ha3, ha4⟩ :=
          ih i ((i + j) / 2) (by omega) hhi (by omega) hleft hright'
        exact ⟨ha1, by omega, ha3, ha4⟩
      | false =>
        rw [if_neg (by simp [hfh])]
        have hleft' : ∀ k, k < (i + j) / 2 + 1 → f k = false := by
          intro k hk
          by_cases hki : k < i
          · exact hleft k hki
          · cases hfk : f k with
            | false => rfl
            | true =>
              exfalso
              have : f ((i + j) / 2) = true :=
                mono k ((i + j) / 2) (by omega) (by omega) hfk
              rw [hfh] at this
              exact Bool.noConfusion this
        obtain ⟨ha1, ha2, ha3, ha4⟩ :=
          ih ((i + j) / 2 + 1) j (by omega) (by omega) hjn hleft' hright
        exact ⟨by omega, ha2, ha3, ha4⟩
    · rw [if_neg hlt]
      have hieq : i = j := by omega
      refine ⟨Nat.le_refl i, by omega, hleft, ?_⟩
      intro k hk hkn
      exact hright k (by omega) hkn

/-- sort.Search(n, f) with f monotone below n: the result is at most n,
everything below it is false and everything from it below n is true. -/
theorem sortSearch_spec (f : Nat → Bool) (n : Nat)
    (mono : ∀ a b, a ≤ b → b < n → f a = true → f b = true) :
    sortSearch n f ≤ n ∧
    (∀ k, k < sortSearch n f → f k = false) ∧
    (∀ k, sortSearch n f ≤ k → k < n → f k = true) := by
  have := searchGo_spec f n mono (n + 1) 0 n (by omega) (by omega) (by omega)
    (fun k hk => absurd hk (by omega)) (fun k hk hkn => absurd hkn (by omega))
  exact ⟨this.2.1, this.2.2⟩

/-- Sorted key arrays give monotone search predicates. -/
theorem sorted_getD_mono {keys : List Nat} (hs : List.Sorted (· ≤ ·) keys)
    {a b : Nat} (hab : a ≤ b) (hb : b < keys.length) :
    keys.getD a 0 ≤ keys.getD b 0 := by
  have ha : a < keys.length := by omega
  rw [List.getD_eq_getElem?_getD, List.getD_eq_getElem?_getD]
  rw [List.getElem?_eq_getElem ha, List.getElem?_eq_getElem hb]
  simp only [Option.getD_some]
  rcases Nat.lt_or_ge a b with hlt | hge
  · exact List.pairwise_iff_get.mp hs ⟨a, ha⟩ ⟨b, hb⟩ hlt
  · have : a = b := by omega
    subst this
    exact Nat.le_refl _

/-- Reading a list at an in-range index through getD. -/
theorem getD_of_getElem {l : List Nat} {j b : Nat} (hj : j < l.length)
    (hbj : l[j] = b) : l.getD j 0 = b := by
  rw [List.getD_eq_getElem?_getD, List.getElem?_eq_getElem hj]
  simpa using hbj

/-- Get follows the spec successor rule on a sorted ring: the smallest
stored position at least the hash, wrapping to the overall smallest
position when none qualifies. -/
theorem ringGet_eq_spec (m : HMap) (k : String) (hs : List.Sorted (· ≤ ·) m.keys) :
    ringGet m k = specRingGet m k := by
  by_cases hnil : m.keys = []
  · unfold ringGet specRingGet
    rw [if_pos (by rw [hnil]; rfl), if_pos hnil]
  · have hlen : m.keys.length ≠ 0 := fun h => hnil (List.eq_nil_of_length_eq_zero h)
    unfold ringGet specRingGet
    rw [if_neg hlen, if_neg hnil]
    have mono : ∀ a b, a ≤ b → b < m.keys.length →
        (fun i => decide (m.hash k ≤ m.keys.getD i 0)) a = true →
        (fun i => decide (m.hash k ≤ m.keys.getD i 0)) b = true := by
      intro a b hab hb ha
      simp only [decide_eq_true_eq] at ha ⊢
      exact Nat.le_trans ha (sorted_getD_mono hs hab hb)
    obtain ⟨hle, hbelow, habove⟩ :=
      sortSearch_spec (fun i => decide (m.hash k ≤ m.keys.getD i 0)) m.keys.length mono
    set r := sortSearch m.keys.length (fun i => decide (m.hash k ≤ m.keys.getD i 0)) with hr
    by_cases hrn : r < m.keys.length
    · have hmod : r % m.keys.length = r := Nat.mod_eq_of_lt hrn
      rw [hmod]
      have hgetr : m.keys.getD r 0 = m.keys.get ⟨r, hrn⟩ := by
        rw [List.getD_eq_getElem?_getD, List.getElem?_eq_getElem hrn]
        rfl
      have hmin : (m.keys.filter (fun p => decide (m.hash k ≤ p))).min? =
          some (m.keys.getD r 0) := by
        apply natMin?_spec.mpr
        constructor
        · apply List.mem_filter.mpr
          constructor
          · rw [hgetr]; exact List.get_mem _ _ _
          · have := habove r (Nat.le_refl r) hrn
            simpa using this
        · intro b hb
          obtain ⟨hbmem, hbp⟩ := List.mem_filter.mp hb
          simp only [decide_eq_true_eq] at hbp
          obtain ⟨j, hj, hbj⟩ := List.mem_iff_getElem.mp hbmem
          by_cases hjr : j < r
          · exfalso
            have hfj := hbelow j hjr
            simp only [decide_eq_false_iff_not] at hfj
            rw [getD_of_getElem hj hbj] at hfj
            exact hfj hbp
          · have h2 : m.keys.getD r 0 ≤ m.keys.getD j 0 := sorted_getD_mono hs (by omega) hj
            rw [getD_of_getElem hj hbj] at h2
            exact h2
      rw [hmin]
    · have hreq : r = m.keys.length := by omega
      have hfilter : m.keys.filter (fun p => decide (m.hash k ≤ p)) = [] := by
        apply List.eq_nil_iff_forall_not_mem.mpr
        intro b hb
        obtain ⟨hbmem, hbp⟩ := List.mem_filter.mp hb
        simp only [decide_eq_true_eq] at hbp
        obtain ⟨j, hj, hbj⟩ := List.mem_iff_getElem.mp hbmem
        have hfj := hbelow j (by omega)
        simp only [decide_eq_false_iff_not] at hfj
        rw [getD_of_getElem hj hbj] at hfj
        exact hfj hbp
      rw [hfilter]
      have hmod : r % m.keys.length = 0 := by rw [hreq]; exact Nat.mod_self _
      rw [hmod]
      have hlen0 : 0 < m.keys.length := by omega
      have hget0 : m.keys.getD 0 0 = m.keys.get ⟨0, hlen0⟩ := by
        rw [List.getD_eq_getElem?_getD, List.getElem?_eq_getElem hlen0]
        rfl
      have hmin : m.keys.min? = some (m.keys.getD 0 0) := by
        apply natMin?_spec.mpr
        constructor
        · rw [hget0]; exact List.get_mem _ _ _
        · intro b hb
          obtain ⟨j, hj, hbj⟩ := List.mem_iff_getElem.mp hb
          have h2 : m.keys.getD 0 0 ≤ m.keys.getD j 0 :=
            sorted_getD_mono hs (Nat.zero_le j) hj
          rw [getD_of_getElem hj hbj] at h2
          exact h2
      rw [List.min?_nil, hmin]

/-- The per-node loop of Add in closed form: positions are appended in
loop order and bindings are pushed (so they sit reversed in front of the
older bindings). -/
theorem addOne_fold (key : String) :
    ∀ (is : List Nat) (acc : HMap),
      is.foldl
        (fun a i =>
          { a with keys := a.keys ++ [a.hash (toString i ++ key)],
                   hashMap := (a.hash (toString i ++ key), key) :: a.hashMap }) acc =
      { acc with
          keys := acc.keys ++ is.map (fun i => acc.hash (toString i ++ key)),
          hashMap :=
            (is.map (fun i => (acc.hash (toString i ++ key), key))).reverse ++
              acc.hashMap } := by
  intro is
  induction is with
  | nil => intro acc; simp
  | cons i t ih =>
    intro acc
    simp only [List.foldl_cons, List.map_cons, List.reverse_cons]
    rw [ih]
    simp [List.append_assoc]

/-- addOne in closed form. -/
theorem addOne_spec (m : HMap) (key : String) :
    addOne m key =
      { m with keys := m.keys ++ nodeHashes m key,
               hashMap := (nodePairs m key).reverse ++ m.hashMap } := by
  unfold addOne nodeHashes nodePairs
  exact addOne_fold key (List.range m.replicas) m

/-- Add of a single node in closed form. -/
theorem ringAdd_single (m : HMap) (n : String) :
    ringAdd m [n] =
      { m with keys := (m.keys ++ nodeHashes m n).insertionSort (· ≤ ·),
               hashMap := (nodePairs m n).reverse ++ m.hashMap } := by
  unfold ringAdd
  simp only [List.foldl_cons, List.foldl_nil]
  rw [addOne_spec]

/-- Looking a position up through a block of bindings that all carry the
same node: a hit anywhere in the block yields that node, a miss falls
through. -/
theorem lookup_node_block (nval : String) :
    ∀ (ps : List (Nat × String)) (rest : List (Nat × String)) (p : Nat),
      (∀ q ∈ ps, q.2 = nval) →
      (ps ++ rest).lookup p =
        if p ∈ ps.map Prod.fst then some nval else rest.lookup p := by
  intro ps
  induction ps with
  | nil => intro rest p _; simp
  | cons q t ih =>
    intro rest p hall
    obtain ⟨a, b⟩ := q
    have hb : b = nval := hall (a, b) (List.mem_cons_self _ _)
    by_cases hpa : p = a
    · subst hpa
      simp [List.lookup, hb]
    · have hne : (p == a) = false := by simp [hpa]
      have hL : ((a, b) :: (t ++ rest)).lookup p = (t ++ rest).lookup p := by
        simp [List.lookup, hne]
      rw [List.cons_append, hL, ih rest p (fun q hq => hall q (List.mem_cons_of_mem _ hq))]
      exact (if_congr (by simp [List.mem_cons, hpa]) rfl rfl).symm

theorem specRingGet_nil (m : HMap) (k : String) (h : m.keys = []) :
    specRingGet m k = "" := by
  unfold specRingGet
  rw [if_pos h]

theorem specRingGet_of_filter_min (m : HMap) (k : String) (p : Nat)
    (hne : m.keys ≠ [])
    (hmin : (m.keys.filter (fun q => decide (m.hash k ≤ q))).min? = some p) :
    specRingGet m k = (m.hashMap.lookup p).getD "" := by
  unfold specRingGet
  rw [if_neg hne, hmin]

theorem specRingGet_of_wrap (m : HMap) (k : String) (p : Nat)
    (hne : m.keys ≠ [])
    (hfil : (m.keys.filter (fun q => decide (m.hash k ≤ q))).min? = none)
    (hmin : m.keys.min? = some p) :
    specRingGet m k = (m.hashMap.lookup p).getD "" := by
  unfold specRingGet
  rw [if_neg hne, hfil, hmin]

/-- Adding one node moves keys only onto the new node: on a sorted ring,
Get after Add(n) yields the old owner or n. -/
theorem ringAdd_monotone (m : HMap) (n k : String)
    (hs : List.Sorted (· ≤ ·) m.keys) :
    ringGet (ringAdd m [n]) k = ringGet m k ∨ ringGet (ringAdd m [n]) k = n := by
  have hsingle := ringAdd_single m n
  have hkeys : (ringAdd m [n]).keys = (m.keys ++ nodeHashes m n).insertionSort (· ≤ ·) := by
    rw [hsingle]
  have hhash : (ringAdd m [n]).hash = m.hash := by rw [hsingle]
  have hmapeq : (ringAdd m [n]).hashMap = (nodePairs m n).reverse ++ m.hashMap := by
    rw [hsingle]
  have hs2 : List.Sorted (· ≤ ·) (ringAdd m [n]).keys := by
    rw [hkeys]
    exact List.sorted_insertionSort _ _
  rw [ringGet_eq_spec _ k hs2, ringGet_eq_spec _ k hs]
  have hmem : ∀ x, x ∈ (ringAdd m [n]).keys ↔ x ∈ m.keys ∨ x ∈ nodeHashes m n := by
    intro x
    rw [hkeys, (List.perm_insertionSort _ _).mem_iff]
    exact List.mem_append
  have hfst : (nodePairs m n).map Prod.fst = nodeHashes m n := by
    unfold nodePairs nodeHashes
    simp
  have hlook : ∀ p, (ringAdd m [n]).hashMap.lookup p =
      if p ∈ nodeHashes m n then some n else m.hashMap.lookup p := by
    intro p
    rw [hmapeq]
    rw [lookup_node_block n ((nodePairs m n).reverse) m.hashMap p
      (fun q hq => by
        have := List.mem_reverse.mp hq
        unfold nodePairs at this
        obtain ⟨i, _, hqi⟩ := List.mem_map.mp this
        rw [← hqi])]
    refine if_congr ?_ rfl rfl
    rw [List.map_reverse, hfst, List.mem_reverse]
  have hpredeq : ∀ q : Nat, decide ((ringAdd m [n]).hash k ≤ q) = decide (m.hash k ≤ q) := by
    intro q
    rw [hhash]
  by_cases hA : (ringAdd m [n]).keys = []
  · left
    have hp := List.perm_insertionSort ((· ≤ ·) : Nat → Nat → Prop) (m.keys ++ nodeHashes m n)
    rw [← hkeys, hA] at hp
    have hnilall : m.keys ++ nodeHashes m n = [] := List.Perm.eq_nil hp.symm
    have hmk : m.keys = [] := (List.append_eq_nil.mp hnilall).1
    rw [specRingGet_nil _ _ hA, specRingGet_nil _ _ hmk]
  · cases hFmin :
        ((ringAdd m [n]).keys.filter (fun q => decide ((ringAdd m [n]).hash k ≤ q))).min? with
    | some p =>
      obtain ⟨hpmem, hplb⟩ := natMin?_spec.mp hFmin
      obtain ⟨hpkeys, hppred⟩ := List.mem_filter.mp hpmem
      rw [specRingGet_of_filter_min _ k p hA hFmin]
      by_cases hpH : p ∈ nodeHashes m n
      · right
        rw [hlook p, if_pos hpH]
        rfl
      · left
        have hpm : p ∈ m.keys := by
          rcases (hmem p).mp hpkeys with h1 | h2
          · exact h1
          · exact absurd h2 hpH
        have hmne : m.keys ≠ [] := by
          intro hx
          rw [hx] at hpm
          exact absurd hpm (List.not_mem_nil p)
        have hppred' : decide (m.hash k ≤ p) = true := by
          rw [← hpredeq p]
          exact hppred
        have hbmin : (m.keys.filter (fun q => decide (m.hash k ≤ q))).min? = some p := by
          apply natMin?_spec.mpr
          refine ⟨List.mem_filter.mpr ⟨hpm, hppred'⟩, ?_⟩
          intro b hb
          obtain ⟨hbk, hbp⟩ := List.mem_filter.mp hb
          apply hplb
          apply List.mem_filter.mpr
          refine ⟨(hmem b).mpr (Or.inl hbk), ?_⟩
          rw [hpredeq b]
          exact hbp
        rw [specRingGet_of_filter_min _ k p hmne hbmin, hlook p, if_neg hpH]
    | none =>
      have hFnil := List.min?_eq_none_iff.mp hFmin
      have hbef : (m.keys.filter (fun q => decide (m.hash k ≤ q))).min? = none := by
        rw [List.min?_eq_none_iff]
        apply List.eq_nil_iff_forall_not_mem.mpr
        intro b hb
        obtain ⟨hbk, hbp⟩ := List.mem_filter.mp hb
        have hbin : b ∈ (ringAdd m [n]).keys.filter
            (fun q => decide ((ringAdd m [n]).hash k ≤ q)) := by
          apply List.mem_filter.mpr
          refine ⟨(hmem b).mpr (Or.inl hbk), ?_⟩
          rw [hpredeq b]
          exact hbp
        rw [hFnil] at hbin
        exact absurd hbin (List.not_mem_nil b)
      cases hKmin : (ringAdd m [n]).keys.min? with
      | none => exact absurd (List.min?_eq_none_iff.mp hKmin) hA
      | some p =>
        rw [specRingGet_of_wrap _ k p hA hFmin hKmin]
        obtain ⟨hpkeys, hplb⟩ := natMin?_spec.mp hKmin
        by_cases hpH : p ∈ nodeHashes m n
        · right
          rw [hlook p, if_pos hpH]
          rfl
        · left
          have hpm : p ∈ m.keys := by
            rcases (hmem p).mp hpkeys with h1 | h2
            · exact h1
            · exact absurd h2 hpH
          have hmne : m.keys ≠ [] := by
            intro hx
            rw [hx] at hpm
            exact absurd hpm (List.not_mem_nil p)
          have hbmin : m.keys.min? = some p :=
            natMin?_spec.mpr ⟨hpm, fun b hb => hplb b ((hmem b).mpr (Or.inl hb))⟩
          rw [specRingGet_of_wrap _ k p hmne hbef hbmin, hlook p, if_neg hpH]

/-- C6: on any ring whose position array is sorted (every state Add
produces), Get returns the empty identity on an empty ring and otherwise
the node mapped at the smallest stored position at least hash(key),
wrapping to the smallest stored position overall when none qualifies. -/
theorem chash_get_follows_spec (m : HMap) (k : String)
    (hs : List.Sorted (· ≤ ·) m.keys) : ringGet m k = specRingGet m k :=
  ringGet_eq_spec m k hs

/-- Witness for chash_get_follows_spec on the concrete demo ring and the
key "11". -/
theorem chash_get_follows_spec_witness :
    List.Sorted (· ≤ ·) demoRing.keys ∧ ringGet demoRing "11" = specRingGet demoRing "11" :=
  ⟨by decide, chash_get_follows_spec demoRing "11" (by decide)⟩

/-- C7 counterexample: on the ring with replicas 3, decimal hash and
nodes "6", "4", "2" (positions 2, 4, 6, 12, 14, 16, 22, 24, 26), the key
"27" hashes past every position, so Get wraps to position 2 and returns
"2", not "4" as claimed. -/
theorem chash_demo_get27_ne4 : ¬ (ringGet demoRing "27" = "4") := by decide

/-- C7 amended: Get("2") and Get("11") return "2" as claimed, and
Get("27") wraps to the smallest position and also returns "2". -/
theorem chash_demo_gets :
    ringGet demoRing "2" = "2" ∧ ringGet demoRing "11" = "2" ∧
    ringGet demoRing "27" = "2" := by decide

/-- C8: on a sorted ring state, adding a node moves the owner of any key
only to the new node or leaves it unchanged, never from one existing
node to another. -/
theorem chash_add_monotone (m : HMap) (n k : String)
    (hs : List.Sorted (· ≤ ·) m.keys) :
    ringGet (ringAdd m [n]) k = ringGet m k ∨ ringGet (ringAdd m [n]) k = n :=
  ringAdd_monotone m n k hs

/-- Witness for chash_add_monotone: adding node "2" to the two-node demo
ring for key "27" (whose owner moves from "4" to the new node "2"). -/
theorem chash_add_monotone_witness :
    List.Sorted (· ≤ ·) demoRingTwo.keys ∧
    (ringGet (ringAdd demoRingTwo ["2"]) "27" = ringGet demoRingTwo "27" ∨
     ringGet (ringAdd demoRingTwo ["2"]) "27" = "2") :=
  ⟨by decide, chash_add_monotone demoRingTwo "2" "27" (by decide)⟩

end CHash

namespace GeeCache

theorem gcacheGet_miss (c : GCache) (key : String) (now : Int) (h : gcMiss c key) :
    gcacheGet c key now = (none, c) := by
  cases c with
  | mk cb lr =>
    cases lr with
    | none => rfl
    | some l =>
      unfold gcMiss at h
      simp only at h
      unfold gcacheGet
      simp only
      unfold Lru.get
      rw [h]

/-- The local-source failure path of Get in closed form: the error is
surfaced with the zero ByteView, the cache is untouched and the getter
log grows by the key. -/
theorem groupGet_local_error (g : Group) (key : String) (now : Int) (e : String)
    (hkey : ¬ key = "") (hmiss : cleanMiss g key) (hlocal : usesLocal g key)
    (herr : g.getter key = .error e) :
    groupGet g key now = ({ g with getterLog := g.getterLog ++ [key] }, ⟨[]⟩, some e) := by
  unfold groupGet
  rw [if_neg hkey, gcacheGet_miss g.mainCache key now hmiss]
  show load { g with mainCache := g.mainCache } key now = _
  unfold load
  unfold usesLocal at hlocal
  cases hp : g.peers with
  | none =>
    simp only
    unfold getLocally
    rw [herr]
  | some pick =>
    rw [hp] at hlocal
    simp only at hlocal ⊢
    cases hpk : pick key with
    | none =>
      rw [hpk] at hlocal
      simp only
      unfold getLocally
      rw [herr]
    | some peer =>
      rw [hpk] at hlocal
      simp only at hlocal
      obtain ⟨pe, hpe⟩ := hlocal
      simp only
      unfold getFromPeer
      rw [hpe]
      simp only
      unfold getLocally
      rw [herr]

/-- C5: when the load path reaches the external Getter and it fails, Get
returns the zero ByteView with that very error, the group state changes
only by logging the getter invocation (the cache gains no entry), and an
identical second Get invokes the getter again and fails the same way. -/
theorem geecache_getter_error_not_cached (g : Group) (key : String) (now : Int)
    (e : String) (hkey : ¬ key = "") (hmiss : cleanMiss g key)
    (hlocal : usesLocal g key) (herr : g.getter key = .error e) :
    groupGet g key now = ({ g with getterLog := g.getterLog ++ [key] }, ⟨[]⟩, some e) ∧
    groupGet { g with getterLog := g.getterLog ++ [key] } key now =
      ({ g with getterLog := (g.getterLog ++ [key]) ++ [key] }, ⟨[]⟩, some e) := by
  refine ⟨groupGet_local_error g key now e hkey hmiss hlocal herr, ?_⟩
  exact groupGet_local_error { g with getterLog := g.getterLog ++ [key] } key now e
    hkey hmiss hlocal herr

/-- Witness for geecache_getter_error_not_cached: a peerless group whose
getter always fails with "boom". -/
theorem geecache_getter_error_not_cached_witness :
    ¬ "k1" = "" ∧
    (groupGet demoGroupFail "k1" 5 =
       ({ demoGroupFail with getterLog := demoGroupFail.getterLog ++ ["k1"] }, ⟨[]⟩,
        some "boom") ∧
     groupGet { demoGroupFail with getterLog := demoGroupFail.getterLog ++ ["k1"] } "k1" 5 =
       ({ demoGroupFail with getterLog := (demoGroupFail.getterLog ++ ["k1"]) ++ ["k1"] },
        ⟨[]⟩, some "boom")) :=
  ⟨by decide,
   geecache_getter_error_not_cached demoGroupFail "k1" 5 "boom" (by decide) trivial
     trivial rfl⟩

/-- C9: when a registered picker yields a peer and the peer call
succeeds, Get returns exactly the bytes of the response and the group is
unchanged: no cache entry is inserted and the external Getter is never
invoked. -/
theorem geecache_peer_success_no_populate (g : Group) (key : String) (now : Int)
    (bytes : List Nat) (pick : String → Option PeerGetter) (peer : PeerGetter)
    (hkey : ¬ key = "") (hmiss : cleanMiss g key) (hp : g.peers = some pick)
    (hpk : pick key = some peer)
    (hpe : peer { group := g.name, key := key } = .ok bytes) :
    groupGet g key now = (g, ⟨bytes⟩, none) := by
  unfold groupGet
  rw [if_neg hkey, gcacheGet_miss g.mainCache key now hmiss]
  show load { g with mainCache := g.mainCache } key now = _
  unfold load
  rw [hp]
  simp only
  rw [hpk]
  simp only
  unfold getFromPeer
  rw [hpe]
  simp only
  rw [← hp]

/-- Witness for geecache_peer_success_no_populate: a group whose picker
routes "k3" to a peer answering [7, 8]. -/
theorem geecache_peer_success_no_populate_witness :
    ¬ "k3" = "" ∧ groupGet demoGroupPeer "k3" 5 = (demoGroupPeer, ⟨[7, 8]⟩, none) :=
  ⟨by decide,
   geecache_peer_success_no_populate demoGroupPeer "k3" 5 [7, 8]
     (fun _ => some demoPeer) demoPeer (by decide) trivial rfl rfl rfl⟩

end GeeCache

namespace SFlight

/-- The invariant holds initially: every caller has merely entered. -/
theorem sfInv_init (n : Nat) : SFInv (sfInit n) := by
  have hrep : ∀ (t : Nat) (ph : Phase), (sfInit n).phases[t]? = some ph →
      ph = Phase.entered := by
    intro t ph hph
    unfold sfInit at hph
    simp only [List.getElem?_replicate] at hph
    by_cases ht : t < n
    · rw [if_pos ht] at hph
      exact (Option.some_inj.mp hph).symm
    · rw [if_neg ht] at hph
      exact Option.noConfusion hph
  refine ⟨?_, ?_, ?_, ?_, ?_, ?_, ?_, ?_⟩
  · intro t r hmid
    exfalso
    unfold midOwner at hmid
    rcases hmid with hc | hc | hc <;> exact Phase.noConfusion (hrep _ _ hc)
  · intro t1 t2 r ho1 _
    exfalso
    unfold ownerOf midOwner at ho1
    rcases ho1 with (hc | hc | hc) | hc <;> exact Phase.noConfusion (hrep _ _ hc)
  · intro t ph r hph hrid
    have := hrep t ph hph
    subst this
    simp [phaseRid] at hrid
  · intro r hr
    exact Option.noConfusion hr
  · intro r hr
    simp [sfInit] at hr
  · intro t r hc
    exfalso
    rcases hc with hc | hc <;> exact Phase.noConfusion (hrep _ _ hc)
  · intro t r hc
    exfalso
    rcases hc with hc | hc | hc <;> exact Phase.noConfusion (hrep _ _ hc)
  · show (sfInit n).invocations + (List.replicate n Phase.entered).countP isInstalledB ≤
      (sfInit n).nextId
    rw [List.countP_replicate]
    simp [isInstalledB, sfInit]

/-- Every step preserves the invariant. -/
theorem sfInv_step (s : SFState) (tid : Nat) (h : SFInv s) : SFInv (step s tid) := by
  obtain ⟨h1, h2, h3, h4, h5, h6, h7, h8⟩ := h
  unfold step
  cases hph : s.phases[tid]? with
  | none => exact ⟨h1, h2, h3, h4, h5, h6, h7, h8⟩
  | some ph =>
    have htid : tid < s.phases.length := by
      rcases Nat.lt_or_ge tid s.phases.length with hl | hge
      · exact hl
      · rw [List.getElem?_eq_none hge] at hph
        exact Option.noConfusion hph
    have hcur : s.phases[tid] = ph := by
      rw [List.getElem?_eq_getElem htid] at hph
      exact Option.some_inj.mp hph
    have hget : ∀ (t : Nat) (newPh : Phase),
        (s.phases.set tid newPh)[t]? = if t = tid then some newPh else s.phases[t]? := by
      intro t newPh
      by_cases he : t = tid
      · subst he
        rw [if_pos rfl]
        exact List.getElem?_set_self htid
      · rw [if_neg he]
        exact List.getElem?_set_ne (Ne.symm he)
    have hcount : ∀ (newPh : Phase),
        (s.phases.set tid newPh).countP isInstalledB =
          s.phases.countP isInstalledB - (if isInstalledB ph then 1 else 0) +
            (if isInstalledB newPh then 1 else 0) := by
      intro newPh
      rw [List.countP_set isInstalledB s.phases tid newPh htid, hcur]
    cases ph with
    | entered =>
      cases hslot : s.slot with
      | some r =>
        refine ⟨?_, ?_, ?_, ?_, ?_, ?_, ?_, ?_⟩
        · intro t r' hmid
          unfold midOwner at hmid
          simp only [hget] at hmid
          by_cases he : t = tid
          · subst he
            simp at hmid
          · simp only [if_neg he] at hmid
            have := h1 t r' hmid
            rw [hslot] at this
            exact this
        · intro t1 t2 r' ho1 ho2
          unfold ownerOf midOwner at ho1 ho2
          simp only [hget] at ho1 ho2
          by_cases he1 : t1 = tid
          · subst he1
            simp at ho1
          · by_cases he2 : t2 = tid
            · subst he2
              simp at ho2
            · simp only [if_neg he1] at ho1
              simp only [if_neg he2] at ho2
              exact h2 t1 t2 r' ho1 ho2
        · intro t ph' r' hph' hrid
          show r' < s.nextId
          simp only [hget] at hph'
          by_cases he : t = tid
          · subst he
            rw [if_pos rfl] at hph'
            cases hph'
            simp [phaseRid] at hrid
            have := h4 r hslot
            omega
          · rw [if_neg he] at hph'
            exact h3 t ph' r' hph' hrid
        · intro r' hr'
          show r' < s.nextId
          have hx : (some r : Option Nat) = some r' := hr'
          cases hx
          exact h4 r hslot
        · exact h5
        · intro t r' hc
          simp only [hget] at hc
          by_cases he : t = tid
          · subst he
            simp at hc
          · simp only [if_neg he] at hc
            exact h6 t r' hc
        · intro t r' hc
          simp only [hget] at hc
          by_cases he : t = tid
          · subst he
            simp at hc
          · simp only [if_neg he] at hc
            exact h7 t r' hc
        · show s.invocations + (s.phases.set tid (Phase.waiting r)).countP isInstalledB ≤
            s.nextId
          rw [hcount]
          simp [isInstalledB]
          omega
      | none =>
        refine ⟨?_, ?_, ?_, ?_, ?_, ?_, ?_, ?_⟩
        · intro t r' hmid
          unfold midOwner at hmid
          simp only [hget] at hmid
          by_cases he : t = tid
          · subst he
            simp at hmid
            have : r' = s.nextId := by omega
            rw [this]
          · simp only [if_neg he] at hmid
            exfalso
            have := h1 t r' hmid
            rw [hslot] at this
            exact Option.noConfusion this
        · intro t1 t2 r' ho1 ho2
          unfold ownerOf midOwner at ho1 ho2
          simp only [hget] at ho1 ho2
          by_cases he1 : t1 = tid
          · by_cases he2 : t2 = tid
            · rw [he1, he2]
            · exfalso
              simp only [if_neg he2] at ho2
              subst he1
              simp at ho1
              have hr1 : r' = s.nextId := by omega
              have hlt : r' < s.nextId := by
                rcases ho2 with (hc | hc | hc) | hc
                · exact h3 t2 _ r' hc rfl
                · exact h3 t2 _ r' hc rfl
                · exact h3 t2 _ r' hc rfl
                · exact h3 t2 _ r' hc rfl
              omega
          · by_cases he2 : t2 = tid
            · exfalso
              simp only [if_neg he1] at ho1
              subst he2
              simp at ho2
              have hr1 : r' = s.nextId := by omega
              have hlt : r' < s.nextId := by
                rcases ho1 with (hc | hc | hc) | hc
                · exact h3 t1 _ r' hc rfl
                · exact h3 t1 _ r' hc rfl
                · exact h3 t1 _ r' hc rfl
                · exact h3 t1 _ r' hc rfl
              omega
            · simp only [if_neg he1] at ho1
              simp only [if_neg he2] at ho2
              exact h2 t1 t2 r' ho1 ho2
        · intro t ph' r' hph' hrid
          show r' < s.nextId + 1
          simp only [hget] at hph'
          by_cases he : t = tid
          · subst he
            rw [if_pos rfl] at hph'
            cases hph'
            simp [phaseRid] at hrid
            omega
          · rw [if_neg he] at hph'
            have := h3 t ph' r' hph' hrid
            omega
        · intro r' hr'
          show r' < s.nextId + 1
          simp only at hr'
          cases hr'
          omega
        · intro r' hr'
          show r' < s.nextId + 1
          have := h5 r' hr'
          omega
        · intro t r' hc
          simp only [hget] at hc
          by_cases he : t = tid
          · subst he
            simp at hc
            have hr1 : r' = s.nextId := by omega
            intro hmem
            have := h5 r' hmem
            omega
          · simp only [if_neg he] at hc
            exact h6 t r' hc
        · intro t r' hc
          simp only [hget] at hc
          by_cases he : t = tid
          · subst he
            simp at hc
          · simp only [if_neg he] at hc
            exact h7 t r' hc
        · show s.invocations + (s.phases.set tid (Phase.installed s.nextId)).countP
            isInstalledB ≤ s.nextId + 1
          rw [hcount]
          simp [isInstalledB]
          omega
    | waiting r =>
      dsimp only
      by_cases hdone : r ∈ s.doneIds
      · rw [if_pos hdone]
        refine ⟨?_, ?_, ?_, ?_, ?_, ?_, ?_, ?_⟩
        · intro t r' hmid
          unfold midOwner at hmid
          simp only [hget] at hmid
          by_cases he : t = tid
          · subst he
            simp at hmid
          · simp only [if_neg he] at hmid
            exact h1 t r' hmid
        · intro t1 t2 r' ho1 ho2
          unfold ownerOf midOwner at ho1 ho2
          simp only [hget] at ho1 ho2
          by_cases he1 : t1 = tid
          · subst he1
            simp at ho1
          · by_cases he2 : t2 = tid
            · subst he2
              simp at ho2
            · simp only [if_neg he1] at ho1
              simp only [if_neg he2] at ho2
              exact h2 t1 t2 r' ho1 ho2
        · intro t ph' r' hph' hrid
          show r' < s.nextId
          simp only [hget] at hph'
          by_cases he : t = tid
          · subst he
            rw [if_pos rfl] at hph'
            cases hph'
            simp [phaseRid] at hrid
            have := h3 t (Phase.waiting r) r hph (by simp [phaseRid])
            omega
          · rw [if_neg he] at hph'
            exact h3 t ph' r' hph' hrid
        · exact h4
        · exact h5
        · intro t r' hc
          simp only [hget] at hc
          by_cases he : t = tid
          · subst he
            simp at hc
          · simp only [if_neg he] at hc
            exact h6 t r' hc
        · intro t r' hc
          simp only [hget] at hc
          by_cases he : t = tid
          · subst he
            simp at hc
            have : r' = r := by omega
            rw [this]
            exact hdone
          · simp only [if_neg he] at hc
            exact h7 t r' hc
        · show s.invocations + (s.phases.set tid (Phase.returned r)).countP isInstalledB ≤
            s.nextId
          rw [hcount]
          simp [isInstalledB]
          omega
      · rw [if_neg hdone]
        exact ⟨h1, h2, h3, h4, h5, h6, h7, h8⟩
    | installed r =>
      refine ⟨?_, ?_, ?_, ?_, ?_, ?_, ?_, ?_⟩
      · intro t r' hmid
        unfold midOwner at hmid
        simp only [hget] at hmid
        by_cases he : t = tid
        · subst he
          simp at hmid
          have : r' = r := by omega
          rw [this]
          exact h1 t r (Or.inl hph)
        · simp only [if_neg he] at hmid
          exact h1 t r' hmid
      · intro t1 t2 r' ho1 ho2
        unfold ownerOf midOwner at ho1 ho2
        simp only [hget] at ho1 ho2
        by_cases he1 : t1 = tid
        · by_cases he2 : t2 = tid
          · rw [he1, he2]
          · subst he1
            simp only [if_neg he2] at ho2
            simp at ho1
            have hr1 : r' = r := by omega
            subst hr1
            exact h2 t1 t2 r' (Or.inl (Or.inl hph)) ho2
        · by_cases he2 : t2 = tid
          · subst he2
            simp only [if_neg he1] at ho1
            simp at ho2
            have hr1 : r' = r := by omega
            subst hr1
            exact h2 t1 t2 r' ho1 (Or.inl (Or.inl hph))
          · simp only [if_neg he1] at ho1
            simp only [if_neg he2] at ho2
            exact h2 t1 t2 r' ho1 ho2
      · intro t ph' r' hph' hrid
        show r' < s.nextId
        simp only [hget] at hph'
        by_cases he : t = tid
        · subst he
          rw [if_pos rfl] at hph'
          cases hph'
          simp [phaseRid] at hrid
          have := h3 t (Phase.installed r) r hph (by simp [phaseRid])
          omega
        · rw [if_neg he] at hph'
          exact h3 t ph' r' hph' hrid
      · exact h4
      · exact h5
      · intro t r' hc
        simp only [hget] at hc
        by_cases he : t = tid
        · subst he
          simp at hc
          have : r' = r := by omega
          rw [this]
          exact h6 t r (Or.inl hph)
        · simp only [if_neg he] at hc
          exact h6 t r' hc
      · intro t r' hc
        simp only [hget] at hc
        by_cases he : t = tid
        · subst he
          simp at hc
        · simp only [if_neg he] at hc
          exact h7 t r' hc
      · show s.invocations + 1 + (s.phases.set tid (Phase.running r)).countP isInstalledB ≤
          s.nextId
        rw [hcount]
        have hpos : 0 < s.phases.countP isInstalledB :=
          List.countP_pos_iff.mpr ⟨Phase.installed r, List.getElem?_mem hph, rfl⟩
        simp [isInstalledB]
        omega
    | running r =>
      refine ⟨?_, ?_, ?_, ?_, ?_, ?_, ?_, ?_⟩
      · intro t r' hmid
        unfold midOwner at hmid
        simp only [hget] at hmid
        by_cases he : t = tid
        · subst he
          simp at hmid
          have : r' = r := by omega
          rw [this]
          exact h1 t r (Or.inr (Or.inl hph))
        · simp only [if_neg he] at hmid
          exact h1 t r' hmid
      · intro t1 t2 r' ho1 ho2
        unfold ownerOf midOwner at ho1 ho2
        simp only [hget] at ho1 ho2
        by_cases he1 : t1 = tid
        · by_cases he2 : t2 = tid
          · rw [he1, he2]
          · subst he1
            simp only [if_neg he2] at ho2
            simp at ho1
            have hr1 : r' = r := by omega
            subst hr1
            exact h2 t1 t2 r' (Or.inl (Or.inr (Or.inl hph))) ho2
        · by_cases he2 : t2 = tid
          · subst he2
            simp only [if_neg he1] at ho1
            simp at ho2
            have hr1 : r' = r := by omega
            subst hr1
            exact h2 t1 t2 r' ho1 (Or.inl (Or.inr (Or.inl hph)))
          · simp only [if_neg he1] at ho1
            simp only [if_neg he2] at ho2
            exact h2 t1 t2 r' ho1 ho2
      · intro t ph' r' hph' hrid
        show r' < s.nextId
        simp only [hget] at hph'
        by_cases he : t = tid
        · subst he
          rw [if_pos rfl] at hph'
          cases hph'
          simp [phaseRid] at hrid
          have := h3 t (Phase.running r) r hph (by simp [phaseRid])
          omega
        · rw [if_neg he] at hph'
          exact h3 t ph' r' hph' hrid
      · exact h4
      · intro r' hr'
        show r' < s.nextId
        simp only at hr'
        rcases List.mem_cons.mp hr' with hc | hc
        · subst hc
          exact h3 tid (Phase.running r') r' hph (by simp [phaseRid])
        · exact h5 r' hc
      · intro t r' hc
        simp only [hget] at hc
        intro hmem
        rcases List.mem_cons.mp hmem with hr1 | hr1
        · subst hr1
          by_cases he : t = tid
          · subst he
            simp at hc
          · simp only [if_neg he] at hc
            have howner : ownerOf s t r' := by
              unfold ownerOf midOwner
              rcases hc with hc | hc
              · exact Or.inl (Or.inl hc)
              · exact Or.inl (Or.inr (Or.inl hc))
            have := h2 t tid r' howner (Or.inl (Or.inr (Or.inl hph)))
            exact he this
        · by_cases he : t = tid
          · subst he
            simp at hc
          · simp only [if_neg he] at hc
            exact h6 t r' hc hr1
      · intro t r' hc
        simp only [hget] at hc
        by_cases he : t = tid
        · subst he
          simp at hc
          have : r' = r := by omega
          rw [this]
          exact List.mem_cons_self r s.doneIds
        · simp only [if_neg he] at hc
          exact List.mem_cons_of_mem r (h7 t r' hc)
      · show s.invocations + (s.phases.set tid (Phase.finished r)).countP isInstalledB ≤
          s.nextId
        rw [hcount]
        simp [isInstalledB]
        omega
    | finished r =>
      refine ⟨?_, ?_, ?_, ?_, ?_, ?_, ?_, ?_⟩
      · intro t r' hmid
        unfold midOwner at hmid
        simp only [hget] at hmid
        by_cases he : t = tid
        · subst he
          simp at hmid
        · simp only [if_neg he] at hmid
          exfalso
          have hs1 := h1 t r' hmid
          have hs2 := h1 tid r (Or.inr (Or.inr hph))
          rw [hs2] at hs1
          have hr1 : r' = r := by
            have := Option.some_inj.mp hs1
            omega
          subst hr1
          have howner : ownerOf s t r' := Or.inl hmid
          have := h2 t tid r' howner (Or.inl (Or.inr (Or.inr hph)))
          exact he this
      · intro t1 t2 r' ho1 ho2
        unfold ownerOf midOwner at ho1 ho2
        simp only [hget] at ho1 ho2
        by_cases he1 : t1 = tid
        · by_cases he2 : t2 = tid
          · rw [he1, he2]
          · subst he1
            simp only [if_neg he2] at ho2
            simp at ho1
            have hr1 : r' = r := by omega
            subst hr1
            exact h2 t1 t2 r' (Or.inl (Or.inr (Or.inr hph))) ho2
        · by_cases he2 : t2 = tid
          · subst he2
            simp only [if_neg he1] at ho1
            simp at ho2
            have hr1 : r' = r := by omega
            subst hr1
            exact h2 t1 t2 r' ho1 (Or.inl (Or.inr (Or.inr hph)))
          · simp only [if_neg he1] at ho1
            simp only [if_neg he2] at ho2
            exact h2 t1 t2 r' ho1 ho2
      · intro t ph' r' hph' hrid
        show r' < s.nextId
        simp only [hget] at hph'
        by_cases he : t = tid
        · subst he
          rw [if_pos rfl] at hph'
          cases hph'
          simp [phaseRid] at hrid
          have := h3 t (Phase.finished r) r hph (by simp [phaseRid])
          omega
        · rw [if_neg he] at hph'
          exact h3 t ph' r' hph' hrid
      · intro r' hr'
        simp only at hr'
        exact Option.noConfusion hr'
      · exact h5
      · intro t r' hc
        simp only [hget] at hc
        by_cases he : t = tid
        · subst he
          simp at hc
        · simp only [if_neg he] at hc
          exact h6 t r' hc
      · intro t r' hc
        simp only [hget] at hc
        by_cases he : t = tid
        · subst he
          simp at hc
          have : r' = r := by omega
          rw [this]
          exact h7 t r (Or.inl hph)
        · simp only [if_neg he] at hc
          exact h7 t r' hc
      · show s.invocations + (s.phases.set tid (Phase.deleted r)).countP isInstalledB ≤
          s.nextId
        rw [hcount]
        simp [isInstalledB]
        omega
    | deleted r =>
      refine ⟨?_, ?_, ?_, ?_, ?_, ?_, ?_, ?_⟩
      · intro t r' hmid
        unfold midOwner at hmid
        simp only [hget] at hmid
        by_cases he : t = tid
        · subst he
          simp at hmid
        · simp only [if_neg he] at hmid
          exact h1 t r' hmid
      · intro t1 t2 r' ho1 ho2
        unfold ownerOf midOwner at ho1 ho2
        simp only [hget] at ho1 ho2
        by_cases he1 : t1 = tid
        · subst he1
          simp at ho1
        · by_cases he2 : t2 = tid
          · subst he2
            simp at ho2
          · simp only [if_neg he1] at ho1
            simp only [if_neg he2] at ho2
            exact h2 t1 t2 r' ho1 ho2
      · intro t ph' r' hph' hrid
        show r' < s.nextId
        simp only [hget] at hph'
        by_cases he : t = tid
        · subst he
          rw [if_pos rfl] at hph'
          cases hph'
          simp [phaseRid] at hrid
          have := h3 t (Phase.deleted r) r hph (by simp [phaseRid])
          omega
        · rw [if_neg he] at hph'
          exact h3 t ph' r' hph' hrid
      · exact h4
      · exact h5
      · intro t r' hc
        simp only [hget] at hc
        by_cases he : t = tid
        · subst he
          simp at hc
        · simp only [if_neg he] at hc
          exact h6 t r' hc
      · intro t r' hc
        simp only [hget] at hc
        by_cases he : t = tid
        · subst he
          simp at hc
          have : r' = r := by omega
          rw [this]
          exact h7 t r (Or.inr (Or.inl hph))
        · simp only [if_neg he] at hc
          exact h7 t r' hc
      · show s.invocations + (s.phases.set tid (Phase.returned r)).countP isInstalledB ≤
          s.nextId
        rw [hcount]
        simp [isInstalledB]
        omega
    | returned r =>
      exact ⟨h1, h2, h3, h4, h5, h6, h7, h8⟩

/-- The invariant holds after any schedule. -/
theorem sfInv_run (n : Nat) (sched : List Nat) : SFInv (sfRun n sched) := by
  unfold sfRun
  have hstart := sfInv_init n
  generalize sfInit n = s at hstart ⊢
  induction sched generalizing s with
  | nil => exact hstart
  | cons tid rest ih =>
    simp only [List.foldl_cons]
    exact ih _ (sfInv_step s tid hstart)

/-- C1 counterexample: two Do(key, fn) callers whose calls overlap in
time, yet fn is invoked twice and the callers obtain the pairs of two
different records.  Both callers have entered Do from the start (caller 1
is blocked before its map lookup, exactly as a goroutine blocked on the
group mutex), so the calls overlap: after one step caller 0 has installed
its record while caller 1 is still inside Do.  Caller 0 then runs fn,
deletes the record and returns; only then does caller 1 perform its map
lookup, which misses, so caller 1 installs a second record and invokes fn
a second time.  The two callers return the values of records 0 and 1
respectively, so with an fn whose successive invocations differ (the spec
fixes no fn) their (value, error) pairs differ. -/
theorem singleflight_overlap_two_invocations :
    (sfRun 2 [0]).phases = [Phase.installed 0, Phase.entered] ∧
    (sfRun 2 [0, 0, 0, 0, 0, 1, 1, 1, 1, 1]).phases =
      [Phase.returned 0, Phase.returned 1] ∧
    (sfRun 2 [0, 0, 0, 0, 0, 1, 1, 1, 1, 1]).invocations = 2 := by
  decide

/-- C1 amended: across all interleavings of any number of callers, at
most one execution of fn is in flight at any time (no two callers are
ever simultaneously running fn for the key); a caller only returns the
pair of a record whose fn has completed, so all callers attached to the
same record return that one identical (value, error) pair; and fn is
invoked at most once per created call record.  Overlap in time alone does
not bound the invocation count: only callers whose map lookup happens
while a record is installed share it. -/
theorem singleflight_amended (n : Nat) (sched : List Nat) :
    (∀ (t1 t2 r1 r2 : Nat),
      (sfRun n sched).phases[t1]? = some (Phase.running r1) →
      (sfRun n sched).phases[t2]? = some (Phase.running r2) → t1 = t2) ∧
    (∀ (t r : Nat), (sfRun n sched).phases[t]? = some (Phase.returned r) →
      r ∈ (sfRun n sched).doneIds) ∧
    (sfRun n sched).invocations ≤ (sfRun n sched).nextId := by
  obtain ⟨h1, h2, h3, h4, h5, h6, h7, h8⟩ := sfInv_run n sched
  refine ⟨?_, ?_, ?_⟩
  · intro t1 t2 r1 r2 ht1 ht2
    have e1 : (sfRun n sched).slot = some r1 := h1 t1 r1 (Or.inr (Or.inl ht1))
    have e2 : (sfRun n sched).slot = some r2 := h1 t2 r2 (Or.inr (Or.inl ht2))
    rw [e1] at e2
    have hr : r1 = r2 := Option.some_inj.mp e2
    subst hr
    exact h2 t1 t2 r1 (Or.inl (Or.inr (Or.inl ht1))) (Or.inl (Or.inr (Or.inl ht2)))
  · intro t r hret
    exact h7 t r (Or.inr (Or.inr hret))
  · omega

/-- Witness for singleflight_amended: in the five-step run of a single
caller, caller 0 has returned the pair of record 0, and that record is
indeed completed. -/
theorem singleflight_amended_witness :
    (sfRun 2 [0, 0, 0, 0, 0]).phases[0]? = some (Phase.returned 0) ∧
    (0 : Nat) ∈ (sfRun 2 [0, 0, 0, 0, 0]).doneIds :=
  ⟨by decide, (singleflight_amended 2 [0, 0, 0, 0, 0]).2.1 0 0 (by decide)⟩

end SFlight

namespace Lru

/-- Witness for lru_add_oversized_empties: maxBytes 3, key "abcd" of
length 4 with an empty value. -/
theorem lru_add_oversized_empties_witness :
    Inv String.length (lruNew String 3) ∧ 0 < (lruNew String 3).maxBytes ∧
    (lruNew String 3).maxBytes < (("abcd".length : Nat) : Int) + (("".length : Nat) : Int) ∧
    ((add String.length (lruNew String 3) "abcd" "" 0 1).ll = [] ∧
     ("abcd", "") ∈ (add String.length (lruNew String 3) "abcd" "" 0 1).evicted ∧
     (∀ e ∈ (lruNew String 3).ll,
        e.key ∈ (add String.length (lruNew String 3) "abcd" "" 0 1).evicted.map Prod.fst) ∧
     (get String.length (add String.length (lruNew String 3) "abcd" "" 0 1) "abcd" 2).1 =
       none) :=
  ⟨by unfold Inv; decide, by decide, by decide,
   lru_add_oversized_empties String.length (lruNew String 3) "abcd" "" 0 1 2
     (by unfold Inv; decide) (by decide) (by decide)⟩

end Lru
